import Mathlib

/-!
# blasterproducts.com documentation downloader

A shallow embedding of `main.go` and of the Go standard-library routines it
calls, followed by theorems about the embedded functions.

Conventions of the embedding

* A Go `string` is its sequence of bytes, `Str = List Nat` (each entry a byte
  `0 .. 255`; every definition is total on larger numbers, which read as bytes
  that start no valid UTF-8 sequence).
* A rune is a natural number (a Unicode code point).
* The case table of Go's `unicode` package for runes above `0x7F` is not part
  of the repository; `unicode.ToLower` on those runes is the parameter `tbl`.
* The operating system and the network are explicit: a `World` holds the file
  system, the trace of HTTP requests issued and the log, an `Env` holds the
  outcomes of the HTTP round trips and of the file creations and writes.
-/

namespace Blaster

/-- A Go string: the list of its bytes. -/
abbrev Str := List Nat

/-! ## UTF-8 (Go package `unicode/utf8`) -/

/-- The rune `utf8.RuneError`, U+FFFD. -/
def runeError : Nat := 0xFFFD

/-- Go `utf8.AppendRune` on an empty buffer: the UTF-8 bytes of a rune;
surrogates and runes above U+10FFFF are written as U+FFFD. -/
def encodeRune (r : Nat) : Str :=
  if r < 0x80 then [r]
  else if r < 0x800 then [0xC0 + r / 64, 0x80 + r % 64]
  else if (0xD800 ≤ r ∧ r ≤ 0xDFFF) ∨ 0x10FFFF < r then [0xEF, 0xBF, 0xBD]
  else if r < 0x10000 then [0xE0 + r / 4096, 0x80 + r / 64 % 64, 0x80 + r % 64]
  else [0xF0 + r / 262144, 0x80 + r / 4096 % 64, 0x80 + r / 64 % 64, 0x80 + r % 64]

/-- The bytes of a string literal (its UTF-8 encoding). -/
def bytes (s : String) : Str := s.toList.flatMap (fun c => encodeRune c.toNat)

/-- A continuation byte `10xxxxxx`. -/
def isCont (b : Nat) : Bool := 0x80 ≤ b && b ≤ 0xBF

/-- Lowest second byte Go's `acceptRanges` allows after the first byte `b0`. -/
def secondLo (b0 : Nat) : Nat :=
  if b0 = 0xE0 then 0xA0 else if b0 = 0xF0 then 0x90 else 0x80

/-- Highest second byte Go's `acceptRanges` allows after the first byte `b0`. -/
def secondHi (b0 : Nat) : Nat :=
  if b0 = 0xED then 0x9F else if b0 = 0xF4 then 0x8F else 0xBF

/-- Go `utf8.DecodeRuneInString`: the first rune of `s` and its width in
bytes; `(RuneError, 0)` on the empty string and `(RuneError, 1)` on a byte
that starts no valid encoding. -/
def decodeRune : Str → Nat × Nat
  | [] => (runeError, 0)
  | b0 :: rest =>
    if b0 < 0x80 then (b0, 1)
    else if 0xC2 ≤ b0 ∧ b0 ≤ 0xDF then
      match rest with
      | b1 :: _ =>
        if isCont b1 then (b0 % 32 * 64 + b1 % 64, 2) else (runeError, 1)
      | _ => (runeError, 1)
    else if 0xE0 ≤ b0 ∧ b0 ≤ 0xEF then
      match rest with
      | b1 :: b2 :: _ =>
        if secondLo b0 ≤ b1 ∧ b1 ≤ secondHi b0 ∧ isCont b2 then
          (b0 % 16 * 4096 + b1 % 64 * 64 + b2 % 64, 3)
        else (runeError, 1)
      | _ => (runeError, 1)
    else if 0xF0 ≤ b0 ∧ b0 ≤ 0xF4 then
      match rest with
      | b1 :: b2 :: b3 :: _ =>
        if secondLo b0 ≤ b1 ∧ b1 ≤ secondHi b0 ∧ isCont b2 ∧ isCont b3 then
          (b0 % 8 * 262144 + b1 % 64 * 4096 + b2 % 64 * 64 + b3 % 64, 4)
        else (runeError, 1)
      | _ => (runeError, 1)
    else (runeError, 1)

/-- The loop `for i, c := range s`: every rune of `s` with the bytes it was
decoded from. The counter is the number of bytes of the current rune still to
be stepped over. -/
def runesAux : Nat → Str → List (Nat × Str)
  | _, [] => []
  | n + 1, _ :: bs => runesAux n bs
  | 0, b :: bs =>
    let rw := decodeRune (b :: bs)
    (rw.1, (b :: bs).take rw.2) :: runesAux (rw.2 - 1) bs

/-- The runes of a string, each with its source bytes. -/
def runes (s : Str) : List (Nat × Str) := runesAux 0 s

/-! ## Package `strings` -/

/-- Lower-casing of an ASCII byte: `'A' .. 'Z'` move by `'a' - 'A'`. -/
def asciiToLower (b : Nat) : Nat := if 65 ≤ b ∧ b ≤ 90 then b + 32 else b

/-- Go `unicode.ToLower`: the ASCII rule up to `unicode.MaxASCII`, the case
table `tbl` above. -/
def unicodeToLower (tbl : Nat → Nat) (r : Nat) : Nat :=
  if r ≤ 0x7F then asciiToLower r else tbl r

/-- Go `strings.Map`: every rune is replaced by the encoding of its image; a
byte that is no valid UTF-8 reads as U+FFFD. -/
def stringsMap (mapping : Nat → Nat) (s : Str) : Str :=
  (runes s).flatMap (fun rw => encodeRune (mapping rw.1))

/-- Go `strings.ToLower`: bytewise on an all-ASCII string, `strings.Map` of
`unicode.ToLower` otherwise. -/
def toLower (tbl : Nat → Nat) (s : Str) : Str :=
  if s.all (fun b => decide (b < 0x80)) then s.map asciiToLower
  else stringsMap (unicodeToLower tbl) s

/-- Go `strings.HasPrefix`. -/
def hasPrefix (s pre : Str) : Bool := pre.isPrefixOf s

/-- Go `strings.HasSuffix`. -/
def hasSuffix (s suf : Str) : Bool := suf.reverse.isPrefixOf s.reverse

/-- Go `strings.Contains`: `sub` occurs in `s` as a contiguous substring. -/
def contains : Str → Str → Bool
  | [], sub => sub.isEmpty
  | c :: cs, sub => hasPrefix (c :: cs) sub || contains cs sub

/-- Removal of the non-overlapping occurrences of a non-empty `old`, leftmost
first; the counter is the number of bytes of the current occurrence still to
be dropped. -/
def removeAllAux (old : Str) : Nat → Str → Str
  | _, [] => []
  | n + 1, _ :: cs => removeAllAux old n cs
  | 0, c :: cs =>
    if hasPrefix (c :: cs) old then removeAllAux old (old.length - 1) cs
    else c :: removeAllAux old 0 cs

/-- Go `strings.ReplaceAll(s, old, "")`: when `old` is empty it equals the
replacement and `s` is returned as is. -/
def replaceAllEmpty (s old : Str) : Str :=
  if old = [] then s else removeAllAux old 0 s

/-- Go `strings.Trim(s, cutset)` for a cutset of one ASCII byte `c`: leading
and trailing occurrences of `c` are cut. -/
def trimByte (s : Str) (c : Nat) : Str :=
  ((s.dropWhile (fun b => b == c)).reverse.dropWhile (fun b => b == c)).reverse

/-- Go `strings.Index(s, sub)`: the offset of the first occurrence. -/
def indexOf : Str → Str → Option Nat
  | [], sub => if sub.isEmpty then some 0 else none
  | c :: cs, sub =>
    if hasPrefix (c :: cs) sub then some 0 else (indexOf cs sub).map (fun i => i + 1)

/-- Go `strings.LastIndex(s, sub)`: the offset of the last occurrence. -/
def lastIndexOf : Str → Str → Option Nat
  | [], sub => if sub.isEmpty then some 0 else none
  | c :: cs, sub =>
    match lastIndexOf cs sub with
    | some i => some (i + 1)
    | none => if hasPrefix (c :: cs) sub then some 0 else none

/-- Go `strings.Cut(s, sep)`: the text before and after the first occurrence
of `sep`, and whether there is one. -/
def cut (s sp : Str) : Str × Str × Bool :=
  match indexOf s sp with
  | some i => (s.take i, s.drop (i + sp.length), true)
  | none => (s, [], false)

/-- Go `strings.Count(s, c)` for a separator of one byte. -/
def countByte (s : Str) (c : Nat) : Nat := s.count c

/-- Go `strings.Split(s, sep)` for a separator of one byte: the pieces between
the separators, one piece more than there are separators. -/
def splitByte (c : Nat) : Str → List Str
  | [] => [[]]
  | b :: bs =>
    if b = c then [] :: splitByte c bs
    else
      match splitByte c bs with
      | [] => [[b]]
      | piece :: pieces => (b :: piece) :: pieces

/-! ## Package `path/filepath` (Unix: the separator is `/`, no volume name) -/

/-- The path separator `/`. -/
def sep : Nat := 47

/-- Go `filepath.Base`: the last element of a path, trailing separators
removed first; `.` for the empty path, `/` for a path of separators only. -/
def filepathBase (path : Str) : Str :=
  if path = [] then [46]
  else
    let p := (path.reverse.dropWhile (fun b => b == sep)).reverse
    let p := (p.reverse.takeWhile (fun b => b != sep)).reverse
    if p = [] then [sep] else p

/-- The loop of Go `filepath.Ext`, run from the last byte backwards over the
reversed path: the bytes after the last `.` of the final element, in reverse,
or nothing when a separator comes first. -/
def extRev : Str → Option Str
  | [] => none
  | c :: cs =>
    if c == sep then none
    else if c == 46 then some []
    else (extRev cs).map (fun e => c :: e)

/-- Go `filepath.Ext`: the suffix of the final element beginning at its last
dot, empty when there is none. -/
def filepathExt (path : Str) : Str :=
  match extRev path.reverse with
  | some e => 46 :: e.reverse
  | none => []

/-- The backtracking of Go `filepath.Clean` at a `..` element, on the
reversed output buffer: the last element is dropped, down to and including
the separator before it, but never below the mark `dotdot`. -/
def cleanBacktrack (dotdot : Nat) : Str → Str
  | [] => []
  | c :: cs => if cs.length > dotdot ∧ c ≠ sep then cleanBacktrack dotdot cs else cs

/-- One round of the loop of Go `filepath.Clean`, for the path element
`elem`; the state is the output buffer and the mark `dotdot`. -/
def cleanStep (rooted : Bool) (st : Str × Nat) (elem : Str) : Str × Nat :=
  if elem = [] ∨ elem = [46] then st
  else if elem = [46, 46] then
    if st.1.length > st.2 then ((cleanBacktrack st.2 st.1.reverse).reverse, st.2)
    else if !rooted then
      let out := (if st.1.length > 0 then st.1 ++ [sep] else st.1) ++ [46, 46]
      (out, out.length)
    else st
  else
    let out := if (rooted ∧ st.1.length ≠ 1) ∨ (!rooted ∧ st.1.length ≠ 0) then st.1 ++ [sep]
      else st.1
    (out ++ elem, st.2)

/-- Go `filepath.Clean`: the shortest equivalent path by lexical processing. -/
def filepathClean (path : Str) : Str :=
  if path = [] then [46]
  else
    let rooted : Bool := hasPrefix path [sep]
    let init : Str × Nat := if rooted then ([sep], 1) else ([], 0)
    let out := ((splitByte sep path).foldl (cleanStep rooted) init).1
    if out = [] then [46] else out

/-- Go `filepath.Join`: the elements from the first non-empty one on, joined
by separators and cleaned; the empty string when all are empty. -/
def filepathJoin (elem : List Str) : Str :=
  match elem.dropWhile (fun e => e.isEmpty) with
  | [] => []
  | es => filepathClean (List.intercalate [sep] es)

/-! ## Package `net/url` -/

/-- Go `url.Userinfo`. -/
structure Userinfo where
  username : Str
  password : Str
  passwordSet : Bool

/-- Go `url.URL` (without `RawPath` and `RawFragment`, the encoding hints
that no function of the program reads). -/
structure URL where
  Scheme : Str := []
  Opaque : Str := []
  User : Option Userinfo := none
  Host : Str := []
  Path : Str := []
  ForceQuery : Bool := false
  RawQuery : Str := []
  Fragment : Str := []
  OmitHost : Bool := false

/-- The escaping modes of `net/url` that `Parse` reaches. -/
inductive Encoding
  | encodePath
  | encodeHost
  | encodeZone
  | encodeUserPassword
  | encodeFragment
  deriving DecidableEq

/-- Go `ishex`. -/
def ishex (c : Nat) : Bool :=
  (48 ≤ c && c ≤ 57) || (97 ≤ c && c ≤ 102) || (65 ≤ c && c ≤ 70)

/-- Go `unhex`. -/
def unhex (c : Nat) : Nat :=
  if 48 ≤ c ∧ c ≤ 57 then c - 48
  else if 97 ≤ c ∧ c ≤ 102 then c - 97 + 10
  else if 65 ≤ c ∧ c ≤ 70 then c - 65 + 10
  else 0

/-- Go `shouldEscape(c, encodeHost)`: letters, digits, the sub-delimiters
``!$&'()*+,;=``, the bytes `:[]<>"` and the marks `-_.~` need no escape in a
host, every other byte does. -/
def shouldEscapeHost (c : Nat) : Bool :=
  if (97 ≤ c ∧ c ≤ 122) ∨ (65 ≤ c ∧ c ≤ 90) ∨ (48 ≤ c ∧ c ≤ 57) then false
  else if c ∈ [33, 36, 38, 39, 40, 41, 42, 43, 44, 59, 61, 58, 91, 93, 60, 62, 34] then false
  else if c ∈ [45, 95, 46, 126] then false
  else true

/-- Go `unescape(s, mode)` for the modes of `Parse`: `none` is an
`EscapeError` or `InvalidHostError`, otherwise every `%XX` is replaced by the
byte it denotes. -/
def unescape (mode : Encoding) : Str → Option Str
  | [] => some []
  | c :: cs =>
    if c = 37 then
      match cs with
      | h1 :: h2 :: rest =>
        if !(ishex h1 && ishex h2) then none
        else if mode = .encodeHost ∧ unhex h1 < 8 ∧ [h1, h2] ≠ [50, 53] then none
        else if mode = .encodeZone ∧ [h1, h2] ≠ [50, 53] ∧ unhex h1 * 16 + unhex h2 ≠ 32
            ∧ shouldEscapeHost (unhex h1 * 16 + unhex h2) then none
        else (unescape mode rest).map (fun t => (unhex h1 * 16 + unhex h2) :: t)
      | _ => none
    else if (mode = .encodeHost ∨ mode = .encodeZone) ∧ c < 0x80 ∧ shouldEscapeHost c then none
    else (unescape mode cs).map (fun t => c :: t)

/-- Go `stringContainsCTLByte`: some byte is below `0x20` or is `0x7f`. -/
def stringContainsCTLByte (s : Str) : Bool := s.any (fun b => b < 0x20 || b == 0x7f)

/-- The loop of Go `getScheme` from offset `i` on: `none` is the error
"missing protocol scheme", otherwise the scheme and the rest; `raw` is the
whole input and `acc` the bytes read so far. -/
def getSchemeAux (raw : Str) : Str → Str → Option (Str × Str)
  | _, [] => some ([], raw)
  | acc, c :: cs =>
    if (97 ≤ c ∧ c ≤ 122) ∨ (65 ≤ c ∧ c ≤ 90) then getSchemeAux raw (acc ++ [c]) cs
    else if (48 ≤ c ∧ c ≤ 57) ∨ c = 43 ∨ c = 45 ∨ c = 46 then
      if acc = [] then some ([], raw) else getSchemeAux raw (acc ++ [c]) cs
    else if c = 58 then
      if acc = [] then none else some (acc, cs)
    else some ([], raw)

/-- Go `getScheme`. -/
def getScheme (rawURL : Str) : Option (Str × Str) := getSchemeAux rawURL [] rawURL

/-- Go `validOptionalPort`: empty, or a colon followed by digits only. -/
def validOptionalPort : Str → Bool
  | [] => true
  | c :: cs => c == 58 && cs.all (fun b => 48 ≤ b && b ≤ 57)

/-- Go `validUserinfo`. -/
def validUserinfo (s : Str) : Bool :=
  s.all (fun r =>
    (65 ≤ r && r ≤ 90) || (97 ≤ r && r ≤ 122) || (48 ≤ r && r ≤ 57) ||
      decide (r ∈ [45, 46, 95, 58, 126, 33, 36, 38, 39, 40, 41, 42, 43, 44, 59, 61, 37, 64]))

/-- Go `parseHost` as in `net/url` before Go 1.24.8 and 1.25.2: the text
between square brackets is not checked to be an IPv6 address, and only the
text after the last colon is checked to be a port. (Later releases reject
bracketed hosts that are no IPv6 literal; the hosts the program meets, plain
names such as `blasterproducts.com`, are read alike by both.) -/
def parseHost (host : Str) : Option Str :=
  if hasPrefix host [91] then
    match lastIndexOf host [93] with
    | none => none
    | some i =>
      if !validOptionalPort (host.drop (i + 1)) then none
      else
        match indexOf (host.take i) (bytes "%25") with
        | some zone =>
          (unescape .encodeHost (host.take zone)).bind (fun host1 =>
            (unescape .encodeZone ((host.take i).drop zone)).bind (fun host2 =>
              (unescape .encodeHost (host.drop i)).map (fun host3 => host1 ++ host2 ++ host3)))
        | none => unescape .encodeHost host
  else
    match lastIndexOf host [58] with
    | some i =>
      if !validOptionalPort (host.drop i) then none else unescape .encodeHost host
    | none => unescape .encodeHost host

/-- Go `parseAuthority`: the user information and the host of an authority
`[userinfo@]host`. -/
def parseAuthority (authority : Str) : Option (Option Userinfo × Str) :=
  match lastIndexOf authority [64] with
  | none => (parseHost authority).map (fun host => (none, host))
  | some i =>
    (parseHost (authority.drop (i + 1))).bind (fun host =>
      let userinfo := authority.take i
      if !validUserinfo userinfo then none
      else if !contains userinfo [58] then
        (unescape .encodeUserPassword userinfo).map (fun u =>
          (some { username := u, password := [], passwordSet := false }, host))
      else
        let c := cut userinfo [58]
        (unescape .encodeUserPassword c.1).bind (fun u =>
          (unescape .encodeUserPassword c.2.1).map (fun pw =>
            (some { username := u, password := pw, passwordSet := true }, host))))

/-- Go `parse(rawURL, viaRequest)` of `net/url`; `none` is an error. -/
def parse (tbl : Nat → Nat) (rawURL : Str) (viaRequest : Bool) : Option URL :=
  if stringContainsCTLByte rawURL then none
  else if rawURL = [] ∧ viaRequest then none
  else if rawURL = [42] then some { Path := [42] }
  else
    match getScheme rawURL with
    | none => none
    | some (scheme, rest) =>
      let scheme := toLower tbl scheme
      let forceQuery : Bool := hasSuffix rest [63] && countByte rest 63 == 1
      let rest' := if forceQuery then rest.take (rest.length - 1) else (cut rest [63]).1
      let rawQuery := if forceQuery then [] else (cut rest [63]).2.1
      if !hasPrefix rest' [sep] ∧ scheme ≠ [] then
        some { Scheme := scheme, Opaque := rest', ForceQuery := forceQuery, RawQuery := rawQuery }
      else if !hasPrefix rest' [sep] ∧ viaRequest then none
      else if !hasPrefix rest' [sep] ∧ contains (cut rest' [sep]).1 [58] then none
      else if (scheme ≠ [] ∨ (!viaRequest ∧ !hasPrefix rest' [sep, sep, sep]))
          ∧ hasPrefix rest' [sep, sep] then
        let authority := rest'.drop 2
        let slash := indexOf authority [sep]
        let auth := match slash with
          | some i => authority.take i
          | none => authority
        let path := match slash with
          | some i => authority.drop i
          | none => []
        match parseAuthority auth with
        | none => none
        | some (user, host) =>
          (unescape .encodePath path).map (fun p =>
            { Scheme := scheme, User := user, Host := host, Path := p,
              ForceQuery := forceQuery, RawQuery := rawQuery })
      else
        (unescape .encodePath rest').map (fun p =>
          { Scheme := scheme, Path := p, ForceQuery := forceQuery, RawQuery := rawQuery,
            OmitHost := decide (scheme ≠ [] ∧ hasPrefix rest' [sep]) })

/-- Go `url.Parse`: the fragment is cut off at the first `#`, the rest is
parsed as a URL that need not be absolute. -/
def urlParse (tbl : Nat → Nat) (rawURL : Str) : Option URL :=
  let c := cut rawURL [35]
  match parse tbl c.1 false with
  | none => none
  | some url =>
    if c.2.1 = [] then some url
    else (unescape .encodeFragment c.2.1).map (fun f => { url with Fragment := f })

/-- Go `url.ParseRequestURI`: the text is parsed as received in an HTTP
request, an absolute URI or an absolute path, with no fragment. -/
def urlParseRequestURI (tbl : Nat → Nat) (rawURL : Str) : Option URL :=
  parse tbl rawURL true

/-- Go `splitHostPort`, first component: the host without a valid port and
without the square brackets of an IP literal. The method `URL.Hostname`
returns it for the field `Host`. -/
def hostname (hostPort : Str) : Str :=
  let host :=
    match lastIndexOf hostPort [58] with
    | some colon => if validOptionalPort (hostPort.drop colon) then hostPort.take colon else hostPort
    | none => hostPort
  if hasPrefix host [91] ∧ hasSuffix host [93] then (host.drop 1).take (host.length - 2)
  else host

/-! ## Functions of `main.go` -/

/-- A Go `map[string]bool`, as the list of its entries, newest first. -/
abbrev BoolMap := List (Str × Bool)

/-- Reading `m[k]` from a `map[string]bool`: `false` for a missing key. -/
def BoolMap.get (m : BoolMap) (k : Str) : Bool := (m.lookup k).getD false

/-- The assignment `m[k] = v`. -/
def BoolMap.set (m : BoolMap) (k : Str) (v : Bool) : BoolMap := (k, v) :: m

/-- The body of the loop of `removeDuplicatesFromSlice`, on the pair of the
map `check` and the slice `newReturnSlice`. -/
def removeDuplicatesStep (st : BoolMap × List Str) (content : Str) : BoolMap × List Str :=
  if !st.1.get content then (st.1.set content true, st.2 ++ [content]) else st

/-- `removeDuplicatesFromSlice` of `main.go`. -/
def removeDuplicatesFromSlice (slice : List Str) : List Str :=
  (slice.foldl removeDuplicatesStep ([], [])).2

/-- `getFilename` of `main.go`. -/
def getFilename (path : Str) : Str := filepathBase path

/-- `removeSubstring` of `main.go`. -/
def removeSubstring (input toRemove : Str) : Str := replaceAllEmpty input toRemove

/-- `getFileExtension` of `main.go`. -/
def getFileExtension (path : Str) : Str := filepathExt path

/-- The character class `[a-z0-9]`. -/
def isLowerAlnum (r : Nat) : Bool := (97 ≤ r && r ≤ 122) || (48 ≤ r && r ≤ 57)

/-- The underscore `_`. -/
def underscore : Nat := 95

/-- Go `regexp.MustCompile("[^a-z0-9]").ReplaceAllString(s, "_")`: every rune
outside the class becomes one underscore, the other runes are copied. -/
def replaceNonAlnum (s : Str) : Str :=
  (runes s).flatMap (fun rw => if isLowerAlnum rw.1 then rw.2 else [underscore])

/-- Go `regexp.MustCompile("_+").ReplaceAllString(s, "_")`: every maximal run
of underscores becomes one underscore (an underscore followed by another one
is dropped, the last of the run is kept). -/
def collapseUnderscores : Str → Str
  | [] => []
  | [c] => [c]
  | c :: d :: rest =>
    if c = underscore ∧ d = underscore then collapseUnderscores (d :: rest)
    else c :: collapseUnderscores (d :: rest)

/-- The list `invalidSubstrings` of `urlToFilename`. -/
def invalidSubstrings : List Str := [bytes "_pdf"]

/-- `urlToFilename` of `main.go`. -/
def urlToFilename (tbl : Nat → Nat) (rawURL : Str) : Str :=
  let lower := toLower tbl rawURL
  let lower := getFilename lower
  let safe := replaceNonAlnum lower
  let safe := collapseUnderscores safe
  let safe := trimByte safe underscore
  let safe := invalidSubstrings.foldl removeSubstring safe
  if getFileExtension safe ≠ bytes ".pdf" then safe ++ bytes ".pdf" else safe

/-- The byte `"`. -/
def quote : Nat := 34

/-- The literal `href="` that opens the pattern of `extractPDFUrls`. -/
def hrefOpen : Str := bytes "href=\""

/-- The literal `.pdf"` that closes the pattern of `extractPDFUrls`. -/
def pdfClose : Str := bytes ".pdf\""

/-- A backtracking matcher for the rest of the capture group and the closing
quote, `[^"]*\.pdf"`, at the start of the text: the greedy star first tries
to take one more byte other than `"`, and only when that fails the literal
`.pdf"` is tried here. The result is the text matched by `[^"]*\.pdf`.
(A byte `"` is never part of a longer UTF-8 sequence, so matching byte by
byte and rune by rune agree.) -/
def matchLinkTail : Str → Option Str
  | [] => none
  | c :: cs =>
    match (if c ≠ quote then matchLinkTail cs else none) with
    | some cap => some (c :: cap)
    | none => if hasPrefix (c :: cs) pdfClose then some (bytes ".pdf") else none

/-- A match of the pattern `href="([^"]+\.pdf)"` that begins at the start of
the text: the slice `[whole match, group 1]`, as one entry of Go's
`FindAllStringSubmatch`. -/
def matchLinkAt (s : Str) : Option (List Str) :=
  if hasPrefix s hrefOpen then
    match s.drop hrefOpen.length with
    | [] => none
    | c :: cs =>
      if c ≠ quote then
        (matchLinkTail cs).map (fun cap => [hrefOpen ++ (c :: cap) ++ [quote], c :: cap])
      else none
  else none

/-- Go `pdfRegex.FindAllStringSubmatch(s, -1)`: the successive non-overlapping
matches, leftmost first; the counter is the number of bytes of the current
match still to be stepped over. -/
def findAllLinksAux : Nat → Str → List (List Str)
  | _, [] => []
  | n + 1, _ :: cs => findAllLinksAux n cs
  | 0, c :: cs =>
    match matchLinkAt (c :: cs) with
    | some m => m :: findAllLinksAux ((m.headD []).length - 1) cs
    | none => findAllLinksAux 0 cs

/-- `extractPDFUrls` of `main.go`. -/
def extractPDFUrls (htmlContent : Str) : List Str :=
  (findAllLinksAux 0 htmlContent).foldl
    (fun pdfLinks m => if m.length > 1 then pdfLinks ++ [m.getD 1 []] else pdfLinks) []

/-- `isUrlValid` of `main.go`. -/
def isUrlValid (tbl : Nat → Nat) (uri : Str) : Bool :=
  (urlParseRequestURI tbl uri).isSome

/-- `hasDomain` of `main.go`. -/
def hasDomain (tbl : Nat → Nat) (rawURL : Str) : Bool :=
  match urlParse tbl rawURL with
  | none => false
  | some parsed => decide (parsed.Host ≠ [])

/-- `extractBaseDomain` of `main.go` (the log line of the error branch is
left out). -/
def extractBaseDomain (tbl : Nat → Nat) (inputUrl : Str) : Str :=
  match urlParse tbl inputUrl with
  | none => []
  | some parsedUrl =>
    let hostName := hostname parsedUrl.Host
    let parts := splitByte 46 hostName
    if parts.length ≥ 2 then parts.getD (parts.length - 2) [] else hostName

/-! ## The file system, the network and `downloadPDF` -/

/-- What a path of the file system names. -/
inductive Node
  | file (data : Str)
  | dir
  deriving DecidableEq

/-- The file system: what each path names, if anything. -/
abbrev FileSystem := Str → Option Node

/-- The lines `downloadPDF` writes to the log, one constructor per call of
`log.Printf`. -/
inductive LogLine
  | alreadyExists (filePath : Str)
  | requestNotCreated (url : Str)
  | downloadFailed (url : Str)
  | badStatus (url : Str) (status : Nat)
  | invalidContentType (url contentType : Str)
  | readFailed (url : Str)
  | zeroBytes (url : Str)
  | createFailed (url : Str)
  | writeFailed (url : Str)
  | success (written : Nat) (url filePath : Str)
  deriving DecidableEq

/-- The state the program acts on: the file system, the URLs for which an
HTTP request was sent (oldest first) and the log (oldest first). -/
structure World where
  fs : FileSystem
  requests : List Str
  log : List LogLine

/-- An HTTP response as `downloadPDF` reads it: the status code, the value of
`Header.Get("Content-Type")`, the bytes `io.Copy` read from the body and
whether `io.Copy` returned an error. -/
structure Response where
  statusCode : Nat
  contentType : Str
  body : Str
  readError : Bool

/-- The outcomes the outside world decides: the result of `client.Do` for a
URL (`none` is a transport error), whether `os.Create` of a path fails, and
whether writing the file fails (after how many bytes). -/
structure Env where
  roundTrip : Str → Option Response
  createFails : Str → Bool
  writeFails : Str → Option Nat

/-- The log with one more line. -/
def World.logging (w : World) (l : LogLine) : World := { w with log := w.log ++ [l] }

/-- The file system with `path` naming `node`. -/
def FileSystem.put (fs : FileSystem) (path : Str) (node : Node) : FileSystem :=
  fun p => if p = path then some node else fs p

/-- `fileExists` of `main.go`: `os.Stat` succeeds and the path is no
directory. -/
def fileExists (w : World) (filename : Str) : Bool :=
  match w.fs filename with
  | none => false
  | some .dir => false
  | some (.file _) => true

/-- `downloadPDF` of `main.go`: the returned flag and the world afterwards.
`http.NewRequest` fails exactly when `url.Parse` rejects the URL; `os.Create`
fails on a directory or when the environment says so, and leaves an empty
file otherwise. -/
def downloadPDF (tbl : Nat → Nat) (env : Env) (finalURL outputDir : Str) (w : World) :
    Bool × World :=
  let filename := toLower tbl (urlToFilename tbl finalURL)
  let filePath := filepathJoin [outputDir, filename]
  if fileExists w filePath then (false, w.logging (.alreadyExists filePath))
  else
    match urlParse tbl finalURL with
    | none => (false, w.logging (.requestNotCreated finalURL))
    | some _ =>
      let w := { w with requests := w.requests ++ [finalURL] }
      match env.roundTrip finalURL with
      | none => (false, w.logging (.downloadFailed finalURL))
      | some resp =>
        if resp.statusCode ≠ 200 then (false, w.logging (.badStatus finalURL resp.statusCode))
        else if !contains resp.contentType (bytes "binary/octet-stream") ∧
            !contains resp.contentType (bytes "application/pdf") then
          (false, w.logging (.invalidContentType finalURL resp.contentType))
        else if resp.readError then (false, w.logging (.readFailed finalURL))
        else if resp.body.length = 0 then (false, w.logging (.zeroBytes finalURL))
        else
          match w.fs filePath with
          | some .dir => (false, w.logging (.createFailed finalURL))
          | _ =>
            if env.createFails filePath then (false, w.logging (.createFailed finalURL))
            else
              match env.writeFails filePath with
              | some n =>
                (false, { w with fs := w.fs.put filePath (.file (resp.body.take n)) }.logging
                  (.writeFailed finalURL))
              | none =>
                (true, { w with fs := w.fs.put filePath (.file resp.body) }.logging
                  (.success resp.body.length finalURL filePath))

/-- The constant `remoteDomainName` of `main`. -/
def remoteDomainName : Str := bytes "https://blasterproducts.com"

/-- The constant `outputDir` of `main`. -/
def outputDir : Str := bytes "PDFs/"

/-- The body of the last loop of `main`, for one extracted link. -/
def processLink (tbl : Nat → Nat) (env : Env) (w : World) (urls : Str) : World :=
  let urls := if !hasDomain tbl urls then remoteDomainName ++ urls else urls
  if isUrlValid tbl urls then (downloadPDF tbl env urls outputDir w).2 else w

/-- The end of `main`, from the archive text read back from disk: the links
are extracted, deduplicated, and each one is completed, checked and
downloaded in turn. -/
def mainFromArchive (tbl : Nat → Nat) (env : Env) (fileContent : Str) (w : World) : World :=
  (removeDuplicatesFromSlice (extractPDFUrls fileContent)).foldl (processLink tbl env) w

/-! ## Auxiliary notions used in the statements and proofs -/

/-- The list of the entries of `xs` that occur at no earlier position: `xs`
with every entry that already occurred earlier removed. -/
def firstOccurrences (xs : List Str) : List Str :=
  ((List.range xs.length).filter (fun i => decide (xs.getD i [] ∉ xs.take i))).map
    (fun i => xs.getD i [])

/-- The bytes allowed in a sanitized name: `a-z`, `0-9` and the underscore. -/
def isNameByte (c : Nat) : Bool := isLowerAlnum c || c == underscore

/-- `goodFrom prev s`: every byte of `s` is in `[a-z0-9_]`, every underscore
stands between two bytes of `[a-z0-9]`, where `prev` tells whether the byte
before `s` is one of `[a-z0-9]`, and `s` does not end in an underscore. -/
def goodFrom : Bool → Str → Bool
  | prev, [] => prev
  | prev, c :: cs =>
    if isLowerAlnum c then goodFrom true cs
    else c == underscore && prev && goodFrom false cs

/-- The value of the variable `safe` of `urlToFilename` before the test of the
file extension. -/
def safeName (tbl : Nat → Nat) (rawURL : Str) : Str :=
  invalidSubstrings.foldl removeSubstring
    (trimByte (collapseUnderscores (replaceNonAlnum (getFilename (toLower tbl rawURL)))) underscore)

/-- No two neighbouring bytes are both underscores. -/
def NoDoubleUnderscore (s : Str) : Prop :=
  List.Chain' (fun a b => ¬ (a = underscore ∧ b = underscore)) s

/-- The substring `_pdf`. -/
def underscorePdf : Str := [95, 112, 100, 102]

/-- An ASCII byte that is neither a letter nor a digit nor the path
separator. -/
def isSymbolByte (c : Nat) : Bool :=
  decide (c < 0x80) && !((97 ≤ c && c ≤ 122) || (65 ≤ c && c ≤ 90) || (48 ≤ c && c ≤ 57)) &&
    c != sep

/-- Two names of the same length that agree at every position, except that
where one has a symbol byte the other may have another symbol byte. -/
def sameUpToSymbols : Str → Str → Bool
  | [], [] => true
  | a :: s1, b :: s2 => (a == b || (isSymbolByte a && isSymbolByte b)) && sameUpToSymbols s1 s2
  | _, _ => false

/-- A match of the pattern `href="([^"]+\.pdf)"` begins at the start of `s`:
`s` is `href="`, a non-empty `stem` without `"`, `.pdf`, `"`, and then `rest`;
the capture group is `stem ++ ".pdf"`. -/
def LinkMatchAt (s stem rest : Str) : Prop :=
  s = hrefOpen ++ (stem ++ bytes ".pdf") ++ quote :: rest ∧ stem ≠ [] ∧ quote ∉ stem

/-! ## The worlds of the examples -/

/-- A world in which `PDFs/file1.pdf` is a regular file and `PDFs` a
directory. -/
def worldWithFile : World :=
  { fs := fun p =>
      if p = bytes "PDFs/file1.pdf" then some (Node.file (bytes "%PDF-1.4"))
      else if p = bytes "PDFs" then some Node.dir else none,
    requests := [],
    log := [] }

/-- An environment in which every request is answered by a PDF and no file
operation fails. -/
def envAllPdf : Env :=
  { roundTrip := fun _ =>
      some { statusCode := 200, contentType := bytes "application/pdf",
             body := bytes "%PDF-1.7", readError := false },
    createFails := fun _ => false,
    writeFails := fun _ => none }

/-- The absolute link of the scenario. -/
def absLink : Str := bytes "https://blasterproducts.com/file1.pdf"

/-- The host-relative link of the scenario. -/
def relLink : Str := bytes "/file1.pdf"

/-- An archive text with the absolute link once and the relative link twice. -/
def archiveExample : Str :=
  bytes ("<a href=\"https://blasterproducts.com/file1.pdf\">SDS</a>\n" ++
    "<a href=\"/file1.pdf\">SDS</a>\n<li><a href=\"/file1.pdf\">SDS</a></li>\n")

/-- A world with the directory `PDFs` and nothing else. -/
def worldEmpty : World :=
  { fs := fun p => if p = bytes "PDFs" then some Node.dir else none,
    requests := [],
    log := [] }

/-- An archive text in which the absolute link occurs once and the relative
link twice, between arbitrary pieces of text. -/
def archiveWith (p0 p1 p2 p3 : Str) : Str :=
  p0 ++ bytes "href=\"https://blasterproducts.com/file1.pdf\"" ++ p1 ++
    bytes "href=\"/file1.pdf\"" ++ p2 ++ bytes "href=\"/file1.pdf\"" ++ p3

/-! ## Deduplication -/

theorem BoolMap.get_set (m : BoolMap) (k x : Str) (v : Bool) :
    (m.set x v).get k = if k = x then v else m.get k := by
  unfold BoolMap.get BoolMap.set
  by_cases h : k = x
  · subst h; simp [List.lookup_cons]
  · have : (k == x) = false := by simpa using h
    simp [List.lookup_cons, this, h]

theorem removeDuplicatesStep_eq (st : BoolMap × List Str) (c : Str) :
    removeDuplicatesStep st c =
      if st.1.get c = true then st else (st.1.set c true, st.2 ++ [c]) := by
  unfold removeDuplicatesStep
  cases h : st.1.get c <;> simp

theorem removeDuplicates_check (xs : List Str) (k : Str) :
    (xs.foldl removeDuplicatesStep ([], [])).1.get k = decide (k ∈ xs) := by
  induction xs using List.reverseRecOn generalizing k with
  | nil => simp [BoolMap.get]
  | append_singleton xs x ih =>
    rw [List.foldl_append, List.foldl_cons, List.foldl_nil, removeDuplicatesStep_eq]
    by_cases hx : x ∈ xs
    · rw [if_pos (by rw [ih]; simpa using hx), ih]
      by_cases hk : k = x
      · subst hk; simp [hx]
      · simp [hk]
    · rw [if_neg (by rw [ih]; simpa using hx)]
      show BoolMap.get (BoolMap.set _ x true) k = _
      rw [BoolMap.get_set, ih]
      by_cases hk : k = x
      · subst hk; simp
      · simp [hk]

theorem removeDuplicates_nil : removeDuplicatesFromSlice [] = [] := rfl

theorem removeDuplicates_snoc (xs : List Str) (x : Str) :
    removeDuplicatesFromSlice (xs ++ [x]) =
      if x ∈ xs then removeDuplicatesFromSlice xs else removeDuplicatesFromSlice xs ++ [x] := by
  unfold removeDuplicatesFromSlice
  rw [List.foldl_append, List.foldl_cons, List.foldl_nil, removeDuplicatesStep_eq,
    removeDuplicates_check]
  by_cases hx : x ∈ xs <;> simp [hx]

theorem removeDuplicates_count (xs : List Str) (x : Str) :
    (removeDuplicatesFromSlice xs).count x = if x ∈ xs then 1 else 0 := by
  induction xs using List.reverseRecOn with
  | nil => simp [removeDuplicates_nil]
  | append_singleton xs y ih =>
    rw [removeDuplicates_snoc]
    by_cases hy : y ∈ xs
    · simp only [hy, if_true, ih]
      by_cases hx : x ∈ xs
      · simp [hx]
      · have : x ≠ y := fun h => hx (h ▸ hy)
        simp [hx, this]
    · simp only [hy, if_false, List.count_append, ih]
      by_cases hxy : x = y
      · subst hxy; simp [hy]
      · have hyx : ¬ y = x := fun h => hxy h.symm
        by_cases hx : x ∈ xs <;> simp [hx, hxy, hyx, List.count_cons]

theorem firstOccurrences_snoc (xs : List Str) (x : Str) :
    firstOccurrences (xs ++ [x]) =
      if x ∈ xs then firstOccurrences xs else firstOccurrences xs ++ [x] := by
  unfold firstOccurrences
  rw [List.length_append, List.length_singleton, List.range_succ, List.filter_append,
    List.map_append]
  have h1 : (List.range xs.length).filter
        (fun i => decide ((xs ++ [x]).getD i [] ∉ (xs ++ [x]).take i)) =
      (List.range xs.length).filter (fun i => decide (xs.getD i [] ∉ xs.take i)) := by
    apply List.filter_congr
    intro i hi
    have hi' : i < xs.length := List.mem_range.mp hi
    rw [List.getD_append _ _ _ _ hi', List.take_append_of_le_length (Nat.le_of_lt hi')]
  have h2 : ((List.range xs.length).filter (fun i => decide (xs.getD i [] ∉ xs.take i))).map
        (fun i => (xs ++ [x]).getD i []) =
      ((List.range xs.length).filter (fun i => decide (xs.getD i [] ∉ xs.take i))).map
        (fun i => xs.getD i []) := by
    apply List.map_congr_left
    intro i hi
    have hi' : i < xs.length := List.mem_range.mp (List.mem_filter.mp hi).1
    exact List.getD_append _ _ _ _ hi'
  rw [h1, h2]
  have h3 : (xs ++ [x]).getD xs.length [] = x := by
    rw [List.getD_append_right _ _ _ _ (Nat.le_refl _)]; simp
  have h4 : (xs ++ [x]).take xs.length = xs := by simp
  by_cases hx : x ∈ xs <;> simp [List.filter_cons, h3, h4, hx]

theorem removeDuplicates_eq_firstOccurrences (xs : List Str) :
    removeDuplicatesFromSlice xs = firstOccurrences xs := by
  induction xs using List.reverseRecOn with
  | nil => rfl
  | append_singleton xs x ih => rw [removeDuplicates_snoc, firstOccurrences_snoc, ih]

/-- **C1.** `removeDuplicatesFromSlice` keeps each distinct string of its
input exactly once and nothing else, in the order of first occurrence: the
result is the input with every entry that already occurred earlier removed.
Strings that differ only in case are both kept. -/
theorem removeDuplicatesFromSlice_first_occurrences (xs : List Str) :
    (∀ x : Str, (removeDuplicatesFromSlice xs).count x = if x ∈ xs then 1 else 0) ∧
    removeDuplicatesFromSlice xs = firstOccurrences xs ∧
    (∀ x : Str, removeDuplicatesFromSlice (xs ++ [x]) =
      if x ∈ xs then removeDuplicatesFromSlice xs else removeDuplicatesFromSlice xs ++ [x]) ∧
    removeDuplicatesFromSlice [bytes "a", bytes "b", bytes "a", bytes "c"] =
      [bytes "a", bytes "b", bytes "c"] ∧
    removeDuplicatesFromSlice [bytes "/A.pdf", bytes "/a.pdf", bytes "/A.pdf"] =
      [bytes "/A.pdf", bytes "/a.pdf"] :=
  ⟨removeDuplicates_count xs, removeDuplicates_eq_firstOccurrences xs,
    removeDuplicates_snoc xs, by decide, by decide⟩

/-! ## File names -/

theorem decodeRune_ascii (b : Nat) (bs : Str) (h : (decodeRune (b :: bs)).1 < 0x80) :
    decodeRune (b :: bs) = (b, 1) := by
  unfold decodeRune at h ⊢
  simp only [runeError, secondLo, secondHi, isCont] at h ⊢
  split_ifs at h ⊢ <;> first | rfl | (exfalso; revert h; split <;> (try split_ifs) <;> simp <;> omega) | (exfalso; simp at h)

theorem runesAux_ascii_src (s : Str) : ∀ (k : Nat) (rw : Nat × Str), rw ∈ runesAux k s →
    rw.1 < 0x80 → rw.2 = [rw.1] := by
  induction s with
  | nil => intro k rw h; cases k <;> simp [runesAux] at h
  | cons b bs ih =>
    intro k rw h hlt
    cases k with
    | succ n => exact ih n rw (by simpa [runesAux] using h) hlt
    | zero =>
      simp only [runesAux, List.mem_cons] at h
      rcases h with h | h
      · subst h
        have := decodeRune_ascii b bs hlt
        simp [this]
      · exact ih _ rw h hlt

theorem isLowerAlnum_lt {r : Nat} (h : isLowerAlnum r = true) : r < 0x80 := by
  simp [isLowerAlnum] at h; omega

theorem replaceNonAlnum_bytes (s : Str) : ∀ c ∈ replaceNonAlnum s, isNameByte c = true := by
  intro c hc
  simp only [replaceNonAlnum, List.mem_flatMap] at hc
  obtain ⟨rw, hrw, hc⟩ := hc
  by_cases h : isLowerAlnum rw.1 = true
  · rw [if_pos h, runesAux_ascii_src s 0 rw hrw (isLowerAlnum_lt h)] at hc
    simp at hc; subst hc; simp [isNameByte, h]
  · rw [if_neg h] at hc
    simp at hc; subst hc; simp [isNameByte]

theorem collapseUnderscores_head (s : Str) : (collapseUnderscores s).head? = s.head? := by
  induction s with
  | nil => rfl
  | cons c cs ih =>
    cases cs with
    | nil => rfl
    | cons d rest =>
      unfold collapseUnderscores
      by_cases h : c = underscore ∧ d = underscore
      · rw [if_pos h, ih]; simp [h.1, h.2]
      · rw [if_neg h]; rfl

theorem collapseUnderscores_subset (s : Str) : ∀ c ∈ collapseUnderscores s, c ∈ s := by
  induction s with
  | nil => simp [collapseUnderscores]
  | cons c cs ih =>
    cases cs with
    | nil => simp [collapseUnderscores]
    | cons d rest =>
      intro x hx
      unfold collapseUnderscores at hx
      by_cases h : c = underscore ∧ d = underscore
      · rw [if_pos h] at hx; exact List.mem_cons_of_mem _ (ih x hx)
      · rw [if_neg h] at hx
        rcases List.mem_cons.mp hx with hx | hx
        · simp [hx]
        · exact List.mem_cons_of_mem _ (ih x hx)

theorem collapseUnderscores_noDouble (s : Str) : NoDoubleUnderscore (collapseUnderscores s) := by
  unfold NoDoubleUnderscore
  induction s with
  | nil => simp [collapseUnderscores]
  | cons c cs ih =>
    cases cs with
    | nil => simp [collapseUnderscores]
    | cons d rest =>
      unfold collapseUnderscores
      by_cases h : c = underscore ∧ d = underscore
      · rw [if_pos h]; exact ih
      · rw [if_neg h, List.chain'_cons']
        refine ⟨?_, ih⟩
        intro y hy
        rw [collapseUnderscores_head] at hy
        simp at hy; subst hy; exact h

theorem trimByte_eq (s : Str) (c : Nat) :
    trimByte s c = (s.dropWhile (fun b => b == c)).rdropWhile (fun b => b == c) := rfl

theorem trimByte_within (s : Str) (c : Nat) : trimByte s c <:+: s := by
  rw [trimByte_eq]
  have h1 := List.rdropWhile_prefix (fun b => b == c) (s.dropWhile (fun b => b == c))
  have h2 : s.dropWhile (fun b => b == c) <:+ s := List.dropWhile_suffix _
  exact h1.isInfix.trans h2.isInfix

theorem trimByte_head (s : Str) (c : Nat) : (trimByte s c).head? ≠ some c := by
  rw [trimByte_eq]
  intro h
  have hp := List.rdropWhile_prefix (fun b => b == c) (s.dropWhile (fun b => b == c))
  have h2 : (s.dropWhile (fun b => b == c)).head? = some c := by
    obtain ⟨t, ht⟩ := hp
    rw [← ht]
    cases hh : (s.dropWhile (fun b => b == c)).rdropWhile (fun b => b == c) with
    | nil => rw [hh] at h; simp at h
    | cons a l => rw [hh] at h; simpa using h
  have h3 := List.head?_dropWhile_not (fun b => b == c) s
  rw [h2] at h3
  simp at h3

theorem trimByte_getLast (s : Str) (c : Nat) : (trimByte s c).getLast? ≠ some c := by
  rw [trimByte_eq]
  intro h
  have hne : (s.dropWhile (fun b => b == c)).rdropWhile (fun b => b == c) ≠ [] := by
    intro h0; rw [h0] at h; simp at h
  have h1 := List.rdropWhile_last_not (fun b => b == c) _ hne
  rw [List.getLast?_eq_getLast _ hne] at h
  simp only [Option.some.injEq] at h
  rw [h] at h1
  simp at h1

theorem goodFrom_of_parts : ∀ (t : Str) (prev : Bool), (∀ c ∈ t, isNameByte c = true) →
    NoDoubleUnderscore t → t.getLast? ≠ some underscore →
    (prev = false → t.head? ≠ some underscore) → (t ≠ [] ∨ prev = true) →
    goodFrom prev t = true := by
  intro t
  induction t with
  | nil => intro prev _ _ _ _ h; simpa [goodFrom] using h
  | cons c cs ih =>
    intro prev hall hch hlast hhead _
    have hch' : NoDoubleUnderscore cs := List.Chain'.tail hch
    have hall' : ∀ x ∈ cs, isNameByte x = true := fun x hx => hall x (List.mem_cons_of_mem _ hx)
    unfold goodFrom
    by_cases hc : isLowerAlnum c = true
    · rw [if_pos hc]
      refine ih true hall' hch' ?_ (by simp) (Or.inr rfl)
      intro h
      apply hlast
      cases cs with
      | nil => simp at h
      | cons d ds => simpa using h
    · rw [if_neg hc]
      have hcu : c = underscore := by
        have := hall c (List.mem_cons_self _ _)
        simp only [isNameByte, Bool.or_eq_true, hc, false_or] at this
        simpa using this
      subst hcu
      have hprev : prev = true := by
        cases prev with
        | true => rfl
        | false => exact absurd rfl (hhead rfl)
      subst hprev
      have hne : cs ≠ [] := by
        intro h0; subst h0; exact hlast rfl
      simp only [beq_self_eq_true, Bool.true_and]
      refine ih false hall' hch' ?_ ?_ (Or.inl hne)
      · intro h
        apply hlast
        cases cs with
        | nil => exact absurd rfl hne
        | cons d ds => simpa using h
      · intro _ h
        cases cs with
        | nil => exact absurd rfl hne
        | cons d ds =>
          simp at h
          subst h
          have := List.Chain'.rel_head hch
          exact this ⟨rfl, rfl⟩

theorem goodFrom_bytes : ∀ (s : Str) (prev : Bool), goodFrom prev s = true →
    ∀ c ∈ s, isNameByte c = true := by
  intro s
  induction s with
  | nil => simp
  | cons c cs ih =>
    intro prev h x hx
    unfold goodFrom at h
    by_cases hc : isLowerAlnum c = true
    · rw [if_pos hc] at h
      rcases List.mem_cons.mp hx with hx | hx
      · subst hx; simp [isNameByte, hc]
      · exact ih true h x hx
    · rw [if_neg hc] at h
      simp only [Bool.and_eq_true, beq_iff_eq] at h
      rcases List.mem_cons.mp hx with hx | hx
      · subst hx; simp [isNameByte, h.1.1]
      · exact ih false h.2 x hx

theorem goodFrom_head (s : Str) (h : goodFrom false s = true) : s.head? ≠ some underscore := by
  cases s with
  | nil => simp
  | cons c cs =>
    unfold goodFrom at h
    by_cases hc : isLowerAlnum c = true
    · intro h2; simp at h2; subst h2; revert hc; decide
    · rw [if_neg hc] at h; simp at h

theorem goodFrom_getLast : ∀ (s : Str) (prev : Bool), goodFrom prev s = true →
    s.getLast? ≠ some underscore := by
  intro s
  induction s with
  | nil => simp
  | cons c cs ih =>
    intro prev h
    unfold goodFrom at h
    by_cases hc : isLowerAlnum c = true
    · rw [if_pos hc] at h
      cases cs with
      | nil => intro h2; simp at h2; subst h2; revert hc; decide
      | cons d ds => have := ih true h; simpa using this
    · rw [if_neg hc] at h
      simp only [Bool.and_eq_true, beq_iff_eq] at h
      cases cs with
      | nil => simp [goodFrom] at h
      | cons d ds => have := ih false h.2; simpa using this

theorem bytes_underscorePdf : bytes "_pdf" = underscorePdf := by decide

theorem bytes_dotPdf : bytes ".pdf" = [46, 112, 100, 102] := by decide

theorem removeAllAux_goodFrom : ∀ (n : Nat) (s : Str), s.length ≤ n → ∀ prev : Bool,
    goodFrom prev s = true → goodFrom prev (removeAllAux underscorePdf 0 s) = true := by
  intro n
  induction n with
  | zero =>
    intro s hs prev h
    have : s = [] := List.length_eq_zero.mp (Nat.le_zero.mp hs)
    subst this; simpa [removeAllAux] using h
  | succ n ih =>
    intro s hs prev h
    have ih' : ∀ (t : Str), t.length ≤ n → ∀ prev : Bool,
        goodFrom prev t = true → goodFrom prev (removeAllAux underscorePdf 0 t) = true := ih
    cases s with
    | nil => simpa [removeAllAux] using h
    | cons c cs =>
      have hcs : cs.length ≤ n := by simpa using hs
      by_cases hp : hasPrefix (c :: cs) underscorePdf = true
      · simp only [hasPrefix, underscorePdf] at hp
        match cs, hp, hcs, h with
        | p :: d :: f :: rest, hp, hcs, h =>
          simp only [List.isPrefixOf, Bool.and_eq_true, beq_iff_eq, Bool.and_true] at hp
          obtain ⟨rfl, rfl, rfl, rfl⟩ := hp
          have hrest : rest.length ≤ n := by simp at hcs; omega
          have e : removeAllAux underscorePdf 0 (95 :: 112 :: 100 :: 102 :: rest) =
              removeAllAux underscorePdf 0 rest := by
            simp [removeAllAux, hasPrefix, underscorePdf, List.isPrefixOf]
          rw [e]
          have hprev : prev = true := by
            cases prev with
            | true => rfl
            | false => simp [goodFrom, isLowerAlnum, underscore] at h
          subst hprev
          apply ih' rest hrest true
          simpa [goodFrom, isLowerAlnum, underscore] using h
        | [], hp, _, _ => simp [List.isPrefixOf] at hp
        | [_], hp, _, _ => simp [List.isPrefixOf] at hp
        | [_, _], hp, _, _ => simp [List.isPrefixOf] at hp
      · have e : removeAllAux underscorePdf 0 (c :: cs) = c :: removeAllAux underscorePdf 0 cs := by
          simp only [removeAllAux]; rw [if_neg hp]
        rw [e]
        unfold goodFrom at h ⊢
        by_cases hc : isLowerAlnum c = true
        · rw [if_pos hc] at h ⊢; exact ih' cs hcs true h
        · rw [if_neg hc] at h ⊢
          simp only [Bool.and_eq_true] at h ⊢
          exact ⟨h.1, ih' cs hcs false h.2⟩

theorem extRev_none (s : Str) (h : 46 ∉ s) : extRev s = none := by
  induction s with
  | nil => rfl
  | cons c cs ih =>
    have hc : c ≠ 46 := fun e => h (by simp [e])
    have hcs : 46 ∉ cs := fun e => h (List.mem_cons_of_mem _ e)
    unfold extRev
    by_cases hs : (c == sep) = true
    · rw [if_pos hs]
    · rw [if_neg hs, if_neg (by simpa using hc), ih hcs]; rfl

theorem filepathExt_nil (s : Str) (h : 46 ∉ s) : filepathExt s = [] := by
  unfold filepathExt
  rw [extRev_none _ (by simpa using h)]

theorem isNameByte_ne_dot {c : Nat} (h : isNameByte c = true) : c ≠ 46 := by
  intro e; subst e; revert h; decide

theorem isNameByte_ne_sep {c : Nat} (h : isNameByte c = true) : c ≠ sep := by
  intro e; subst e; revert h; decide

theorem safeName_good (tbl : Nat → Nat) (s : Str) :
    safeName tbl s = [] ∨ goodFrom false (safeName tbl s) = true := by
  have e : safeName tbl s = removeAllAux underscorePdf 0
      (trimByte (collapseUnderscores (replaceNonAlnum (getFilename (toLower tbl s)))) underscore) := by
    simp [safeName, invalidSubstrings, removeSubstring, replaceAllEmpty, bytes_underscorePdf,
      underscorePdf]
  rw [e]
  generalize hu : replaceNonAlnum (getFilename (toLower tbl s)) = u
  have hub : ∀ c ∈ u, isNameByte c = true := hu ▸ replaceNonAlnum_bytes _
  by_cases ht : trimByte (collapseUnderscores u) underscore = []
  · left; rw [ht]; rfl
  · right
    apply removeAllAux_goodFrom _ _ (Nat.le_refl _)
    apply goodFrom_of_parts
    · intro c hc
      exact hub c (collapseUnderscores_subset u c ((trimByte_within _ _).subset hc))
    · exact List.Chain'.infix (collapseUnderscores_noDouble u) (trimByte_within _ _)
    · exact trimByte_getLast _ _
    · intro _; exact trimByte_head _ _
    · exact Or.inl ht

theorem safeName_bytes (tbl : Nat → Nat) (s : Str) : ∀ c ∈ safeName tbl s, isNameByte c = true := by
  rcases safeName_good tbl s with h | h
  · rw [h]; simp
  · exact goodFrom_bytes _ _ h

theorem urlToFilename_eq (tbl : Nat → Nat) (s : Str) :
    urlToFilename tbl s = safeName tbl s ++ bytes ".pdf" := by
  have h : getFileExtension (safeName tbl s) = [] :=
    filepathExt_nil _ (fun hm => isNameByte_ne_dot (safeName_bytes tbl s 46 hm) rfl)
  show (if getFileExtension (safeName tbl s) ≠ bytes ".pdf" then
      safeName tbl s ++ bytes ".pdf" else safeName tbl s) = _
  rw [h, if_pos (by decide)]

/-- **C8.** The sanitized file name is filesystem-safe for every input: it is
a stem followed by `.pdf`, the stem has only the bytes `a-z`, `0-9` and `_`
and neither begins nor ends with an underscore; hence the name has no path
separator, no `..` and no upper-case letter. -/
theorem urlToFilename_filesystem_safe (tbl : Nat → Nat) (s : Str) :
    ∃ stem : Str, urlToFilename tbl s = stem ++ bytes ".pdf" ∧
      (∀ c ∈ stem, (97 ≤ c ∧ c ≤ 122) ∨ (48 ≤ c ∧ c ≤ 57) ∨ c = 95) ∧
      stem.head? ≠ some 95 ∧ stem.getLast? ≠ some 95 ∧
      sep ∉ urlToFilename tbl s ∧ ¬ (bytes ".." <:+: urlToFilename tbl s) ∧
      (∀ c ∈ urlToFilename tbl s, ¬ (65 ≤ c ∧ c ≤ 90)) := by
  have hb := safeName_bytes tbl s
  have hmem : ∀ c ∈ urlToFilename tbl s, isNameByte c = true ∨ c = 46 := by
    intro c hc
    rw [urlToFilename_eq, bytes_dotPdf, List.mem_append] at hc
    rcases hc with hc | hc
    · exact Or.inl (hb c hc)
    · simp at hc; rcases hc with h | h | h | h <;> subst h <;> simp [isNameByte, isLowerAlnum]
  refine ⟨safeName tbl s, urlToFilename_eq tbl s, ?_, ?_, ?_, ?_, ?_, ?_⟩
  · intro c hc
    have := hb c hc
    simp only [isNameByte, isLowerAlnum, underscore, Bool.or_eq_true, Bool.and_eq_true,
      decide_eq_true_eq, beq_iff_eq] at this
    tauto
  · rcases safeName_good tbl s with h | h
    · rw [h]; simp
    · exact goodFrom_head _ h
  · rcases safeName_good tbl s with h | h
    · rw [h]; simp
    · exact goodFrom_getLast _ _ h
  · intro h
    rcases hmem _ h with h' | h'
    · exact isNameByte_ne_sep h' rfl
    · simp [sep] at h'
  · intro h
    have h1 := h.sublist.count_le 46
    have h0 : List.count 46 (safeName tbl s) = 0 :=
      List.count_eq_zero.mpr (fun hm => isNameByte_ne_dot (hb 46 hm) rfl)
    rw [urlToFilename_eq, List.count_append, h0, bytes_dotPdf] at h1
    revert h1; decide
  · intro c hc hup
    rcases hmem c hc with h' | h'
    · simp only [isNameByte, isLowerAlnum, underscore, Bool.or_eq_true, Bool.and_eq_true,
        decide_eq_true_eq, beq_iff_eq] at h'
      omega
    · omega

theorem toLower_of_lower (tbl : Nat → Nat) (r : Str)
    (h : ∀ c ∈ r, isNameByte c = true ∨ c = 46) : toLower tbl r = r := by
  have h1 : r.all (fun b => decide (b < 0x80)) = true := by
    rw [List.all_eq_true]
    intro c hc
    rcases h c hc with h' | h'
    · simp only [isNameByte, isLowerAlnum, underscore, Bool.or_eq_true, Bool.and_eq_true,
        decide_eq_true_eq, beq_iff_eq] at h'
      simp; omega
    · subst h'; decide
  unfold toLower
  rw [if_pos h1]
  conv_rhs => rw [← List.map_id r]
  apply List.map_congr_left
  intro c hc
  unfold asciiToLower
  rcases h c hc with h' | h'
  · simp only [isNameByte, isLowerAlnum, underscore, Bool.or_eq_true, Bool.and_eq_true,
      decide_eq_true_eq, beq_iff_eq] at h'
    rw [if_neg (by omega)]; rfl
  · subst h'; rfl

theorem filepathBase_of_no_sep (r : Str) (hne : r ≠ []) (h : sep ∉ r) : filepathBase r = r := by
  unfold filepathBase
  rw [if_neg hne]
  have h1 : r.reverse.dropWhile (fun b => b == sep) = r.reverse := by
    cases hr : r.reverse with
    | nil => rfl
    | cons a l =>
      have ha : a ≠ sep := by
        intro e; apply h; rw [← List.mem_reverse, hr, e]; simp
      exact List.dropWhile_cons_of_neg (by simpa using ha)
  have h2 : r.reverse.takeWhile (fun b => b != sep) = r.reverse := by
    rw [List.takeWhile_eq_self_iff]
    intro x hx
    have : x ≠ sep := fun e => h (by rw [← e]; exact List.mem_reverse.mp hx)
    simpa using this
  simp only [h1, List.reverse_reverse, h2, if_neg hne]

theorem runes_ascii (s : Str) (h : ∀ c ∈ s, c < 0x80) : runes s = s.map (fun b => (b, [b])) := by
  unfold runes
  induction s with
  | nil => rfl
  | cons b bs ih =>
    have hb : b < 0x80 := h b (by simp)
    have e : decodeRune (b :: bs) = (b, 1) := by simp [decodeRune, hb]
    simp only [runesAux, e, List.map_cons]
    rw [ih (fun c hc => h c (List.mem_cons_of_mem _ hc))]
    simp

theorem replaceNonAlnum_ascii (s : Str) (h : ∀ c ∈ s, c < 0x80) :
    replaceNonAlnum s = s.map (fun b => if isLowerAlnum b then b else underscore) := by
  unfold replaceNonAlnum
  rw [runes_ascii s h]
  induction s with
  | nil => rfl
  | cons b bs ih =>
    simp only [List.map_cons, List.flatMap_cons]
    rw [ih (fun c hc => h c (List.mem_cons_of_mem _ hc))]
    by_cases hb : isLowerAlnum b = true <;> simp [hb]

theorem goodFrom_cons (prev : Bool) (c : Nat) (cs : Str) :
    goodFrom prev (c :: cs) =
      if isLowerAlnum c then goodFrom true cs else (c == underscore && prev && goodFrom false cs) :=
  rfl

theorem goodFrom_append : ∀ (a b : Str) (prev : Bool), goodFrom prev a = true →
    goodFrom prev (a ++ b) = goodFrom true b := by
  intro a
  induction a with
  | nil => intro b prev h; simp [goodFrom] at h; subst h; rfl
  | cons c cs ih =>
    intro b prev h
    rw [List.cons_append, goodFrom_cons]
    rw [goodFrom_cons] at h
    by_cases hc : isLowerAlnum c = true
    · rw [if_pos hc] at h ⊢; exact ih b true h
    · rw [if_neg hc] at h ⊢
      simp only [Bool.and_eq_true] at h
      rw [h.1.1, h.1.2, Bool.true_and, Bool.true_and]
      exact ih b false h.2

theorem collapseUnderscores_of_good : ∀ (s : Str) (prev : Bool), goodFrom prev s = true →
    collapseUnderscores s = s := by
  intro s
  induction s with
  | nil => intros; rfl
  | cons c cs ih =>
    intro prev h
    cases cs with
    | nil => rfl
    | cons d rest =>
      unfold goodFrom at h
      unfold collapseUnderscores
      by_cases hc : isLowerAlnum c = true
      · rw [if_pos hc] at h
        have : ¬ (c = underscore ∧ d = underscore) := by
          rintro ⟨e, -⟩; subst e; revert hc; decide
        rw [if_neg this, ih true h]
      · rw [if_neg hc] at h
        simp only [Bool.and_eq_true, beq_iff_eq] at h
        have hd : ¬ (c = underscore ∧ d = underscore) := by
          rintro ⟨-, e⟩
          subst e
          have := h.2
          simp [goodFrom, isLowerAlnum, underscore] at this
        rw [if_neg hd, ih false h.2]

theorem trimByte_of_good (s : Str) (h : goodFrom false s = true) : trimByte s underscore = s := by
  have h1 : s.dropWhile (fun b => b == underscore) = s := by
    cases s with
    | nil => rfl
    | cons a l =>
      have ha : a ≠ underscore := by
        intro e; exact goodFrom_head _ h (by simp [e])
      exact List.dropWhile_cons_of_neg (by simpa using ha)
  have h2 : s.reverse.dropWhile (fun b => b == underscore) = s.reverse := by
    cases hr : s.reverse with
    | nil => rfl
    | cons a l =>
      have ha : a ≠ underscore := by
        intro e
        apply goodFrom_getLast _ _ h
        rw [List.getLast?_eq_head?_reverse, hr, e]; rfl
      exact List.dropWhile_cons_of_neg (by simpa using ha)
  unfold trimByte
  rw [h1, h2, List.reverse_reverse]

theorem contains_cons_false {c : Nat} {cs sub : Str} (h : contains (c :: cs) sub = false) :
    hasPrefix (c :: cs) sub = false ∧ contains cs sub = false := by
  simpa [contains] using h

theorem removeAllAux_zero_cons (old : Str) (c : Nat) (cs : Str) :
    removeAllAux old 0 (c :: cs) =
      if hasPrefix (c :: cs) old then removeAllAux old (old.length - 1) cs
      else c :: removeAllAux old 0 cs := rfl

theorem toLower_ascii (tbl : Nat → Nat) (s : Str) (h : ∀ c ∈ s, c < 0x80) :
    toLower tbl s = s.map asciiToLower := by
  unfold toLower
  rw [if_pos (by rw [List.all_eq_true]; intro c hc; simpa using h c hc)]

theorem urlToFilename_ascii (tbl tbl' : Nat → Nat) (s : Str) (h : ∀ c ∈ s, c < 0x80) :
    urlToFilename tbl s = urlToFilename tbl' s := by
  unfold urlToFilename
  rw [toLower_ascii tbl s h, toLower_ascii tbl' s h]

theorem contains_append_false : ∀ (a b sub : Str), sub ≠ [] → contains (a ++ b) sub = false →
    contains a sub = false := by
  intro a
  induction a with
  | nil => intro b sub hs _; cases sub with
    | nil => exact absurd rfl hs
    | cons x xs => rfl
  | cons c cs ih =>
    intro b sub hs h
    rw [List.cons_append] at h
    obtain ⟨hp, hc⟩ := contains_cons_false h
    have hp' : hasPrefix (c :: cs) sub = false := by
      cases hq : hasPrefix (c :: cs) sub with
      | false => rfl
      | true =>
        have h1 : sub <+: c :: cs := List.isPrefixOf_iff_prefix.mp hq
        have h2 : sub <+: c :: (cs ++ b) := h1.trans ⟨b, by simp⟩
        have h3 : hasPrefix (c :: (cs ++ b)) sub = true := List.isPrefixOf_iff_prefix.mpr h2
        rw [hp] at h3; exact absurd h3 (by simp)
    simp [contains, hp', ih b sub hs hc]

theorem removeAllAux_pdf_match (rest : Str) :
    removeAllAux underscorePdf 0 (95 :: 112 :: 100 :: 102 :: rest) =
      removeAllAux underscorePdf 0 rest := by
  simp [removeAllAux, hasPrefix, underscorePdf, List.isPrefixOf]

theorem hasPrefix_pdf_cases (s : Str) (h : hasPrefix s underscorePdf = true) :
    ∃ rest, s = 95 :: 112 :: 100 :: 102 :: rest := by
  obtain ⟨rest, hr⟩ := (List.isPrefixOf_iff_prefix.mp h)
  exact ⟨rest, hr.symm⟩

theorem removeAllAux_length : ∀ (n : Nat) (s : Str), s.length ≤ n →
    (removeAllAux underscorePdf 0 s).length ≤ s.length ∧
    (contains s underscorePdf = true → (removeAllAux underscorePdf 0 s).length < s.length) := by
  intro n
  induction n with
  | zero =>
    intro s hs
    have : s = [] := List.length_eq_zero.mp (Nat.le_zero.mp hs)
    subst this
    exact ⟨by simp [removeAllAux], by simp [contains, underscorePdf]⟩
  | succ n ih =>
    intro s hs
    cases s with
    | nil => exact ⟨by simp [removeAllAux], by simp [contains, underscorePdf]⟩
    | cons c cs =>
      by_cases hp : hasPrefix (c :: cs) underscorePdf = true
      · obtain ⟨rest, hr⟩ := hasPrefix_pdf_cases _ hp
        rw [hr, removeAllAux_pdf_match]
        have hl : rest.length ≤ n := by
          have := congrArg List.length hr
          simp at this hs; omega
        have := (ih rest hl).1
        simp only [List.length_cons]
        exact ⟨by omega, fun _ => by omega⟩
      · have e : removeAllAux underscorePdf 0 (c :: cs) =
            c :: removeAllAux underscorePdf 0 cs := by
          rw [removeAllAux_zero_cons, if_neg hp]
        have hl : cs.length ≤ n := by simpa using hs
        have := ih cs hl
        rw [e]
        simp only [List.length_cons]
        refine ⟨by omega, fun hc => ?_⟩
        have hc' : contains cs underscorePdf = true := by
          simp only [contains, Bool.or_eq_true] at hc
          rcases hc with hc | hc
          · exact absurd hc hp
          · exact hc
        have := this.2 hc'
        omega

theorem hasPrefix_append_pdf (c : Nat) (cs : Str) :
    hasPrefix (c :: cs ++ underscorePdf) underscorePdf = hasPrefix (c :: cs) underscorePdf := by
  simp only [hasPrefix, underscorePdf]
  match cs with
  | [] => simp [List.isPrefixOf]
  | [x] => simp [List.isPrefixOf]
  | [x, y] => simp [List.isPrefixOf]
  | x :: y :: z :: rest => simp [List.isPrefixOf]

theorem removeAllAux_append_pdf_gen : ∀ (n : Nat) (s : Str), s.length ≤ n →
    removeAllAux underscorePdf 0 (s ++ underscorePdf) = removeAllAux underscorePdf 0 s := by
  intro n
  induction n with
  | zero =>
    intro s hs
    have : s = [] := List.length_eq_zero.mp (Nat.le_zero.mp hs)
    subst this; decide
  | succ n ih =>
    intro s hs
    cases s with
    | nil => decide
    | cons c cs =>
      by_cases hp : hasPrefix (c :: cs) underscorePdf = true
      · obtain ⟨rest, hr⟩ := hasPrefix_pdf_cases _ hp
        have hl : rest.length ≤ n := by
          have := congrArg List.length hr
          simp at this hs; omega
        rw [hr]
        show removeAllAux underscorePdf 0 (95 :: 112 :: 100 :: 102 :: (rest ++ underscorePdf)) = _
        rw [removeAllAux_pdf_match, removeAllAux_pdf_match, ih rest hl]
      · have hp' : ¬ hasPrefix (c :: cs ++ underscorePdf) underscorePdf = true := by
          rw [hasPrefix_append_pdf]; exact hp
        have hl : cs.length ≤ n := by simpa using hs
        rw [removeAllAux_zero_cons, if_neg hp]
        rw [List.cons_append] at hp' ⊢
        rw [removeAllAux_zero_cons, if_neg hp', ih cs hl]

theorem hasPrefix_append_dotPdf (c : Nat) (cs : Str)
    (h : hasPrefix (c :: cs ++ [46, 112, 100, 102]) underscorePdf = true) :
    hasPrefix (c :: cs) underscorePdf = true := by
  simp only [hasPrefix, underscorePdf] at h ⊢
  match cs, h with
  | [], h => simp [List.isPrefixOf] at h
  | [x], h => simp [List.isPrefixOf] at h
  | [x, y], h => simp [List.isPrefixOf] at h
  | x :: y :: z :: rest, h => simpa [List.isPrefixOf] using h

theorem contains_append_dotPdf (s : Str)
    (h : contains (s ++ bytes ".pdf") underscorePdf = true) :
    contains s underscorePdf = true := by
  rw [bytes_dotPdf] at h
  induction s with
  | nil => revert h; decide
  | cons c cs ih =>
    rw [List.cons_append] at h
    simp only [contains, Bool.or_eq_true] at h ⊢
    rcases h with h | h
    · exact Or.inl (hasPrefix_append_dotPdf c cs h)
    · exact Or.inr (ih h)

theorem safeName_of_good (tbl : Nat → Nat) (stem : Str) (hg : goodFrom false stem = true) :
    safeName tbl (stem ++ bytes ".pdf") = removeAllAux underscorePdf 0 stem := by
  have hb := goodFrom_bytes _ _ hg
  have hmem : ∀ c ∈ stem ++ bytes ".pdf", isNameByte c = true ∨ c = 46 := by
    intro c hc
    rw [bytes_dotPdf, List.mem_append] at hc
    rcases hc with hc | hc
    · exact Or.inl (hb c hc)
    · simp at hc; rcases hc with h | h | h | h <;> subst h <;> simp [isNameByte, isLowerAlnum]
  have hsep : sep ∉ stem ++ bytes ".pdf" := by
    intro h
    rcases hmem _ h with h' | h'
    · exact isNameByte_ne_sep h' rfl
    · simp [sep] at h'
  have hascii : ∀ c ∈ stem ++ bytes ".pdf", c < 0x80 := by
    intro c hc
    rcases hmem c hc with h' | h'
    · simp only [isNameByte, isLowerAlnum, underscore, Bool.or_eq_true, Bool.and_eq_true,
        decide_eq_true_eq, beq_iff_eq] at h'
      omega
    · omega
  have hmap : (stem ++ bytes ".pdf").map (fun b => if isLowerAlnum b then b else underscore) =
      stem ++ underscorePdf := by
    rw [List.map_append]
    congr 1
    · conv_rhs => rw [← List.map_id stem]
      apply List.map_congr_left
      intro c hc
      have := hb c hc
      by_cases h : isLowerAlnum c = true
      · simp [h]
      · simp only [isNameByte, Bool.or_eq_true, beq_iff_eq] at this
        rcases this with h0 | h0
        · exact absurd h0 h
        · simp [h, h0]
  have hg2 : goodFrom false (stem ++ underscorePdf) = true := by
    rw [goodFrom_append _ _ _ hg]; decide
  have e : safeName tbl (stem ++ bytes ".pdf") = removeAllAux underscorePdf 0
      (trimByte (collapseUnderscores (replaceNonAlnum (getFilename (toLower tbl
        (stem ++ bytes ".pdf"))))) underscore) := by
    simp [safeName, invalidSubstrings, removeSubstring, replaceAllEmpty, bytes_underscorePdf,
      underscorePdf]
  rw [e, toLower_of_lower tbl _ hmem]
  have hne : stem ++ bytes ".pdf" ≠ [] := by rw [bytes_dotPdf]; simp
  rw [show getFilename (stem ++ bytes ".pdf") = stem ++ bytes ".pdf" from
    filepathBase_of_no_sep _ hne hsep]
  rw [replaceNonAlnum_ascii _ hascii, hmap, collapseUnderscores_of_good _ _ hg2,
    trimByte_of_good _ hg2, removeAllAux_append_pdf_gen _ _ (Nat.le_refl _)]

theorem removeAllAux_of_not_contains : ∀ (s : Str), contains s underscorePdf = false →
    removeAllAux underscorePdf 0 s = s := by
  intro s
  induction s with
  | nil => intro _; rfl
  | cons c cs ih =>
    intro h
    obtain ⟨hp, hcs⟩ := contains_cons_false h
    rw [removeAllAux_zero_cons, if_neg (by simp [hp]), ih hcs]

/-- **C2 (amended).** Applying the file-name synthesis to its own output gives
the same name exactly when that output is not the bare `.pdf` and does not
contain `_pdf`. -/
theorem urlToFilename_idempotent_iff (tbl : Nat → Nat) (s : Str) :
    urlToFilename tbl (urlToFilename tbl s) = urlToFilename tbl s ↔
      (urlToFilename tbl s ≠ bytes ".pdf" ∧
        contains (urlToFilename tbl s) (bytes "_pdf") = false) := by
  rw [bytes_underscorePdf]
  constructor
  · intro h
    have hstem : safeName tbl s ≠ [] := by
      intro h0
      have e1 : urlToFilename tbl s = bytes ".pdf" := by rw [urlToFilename_eq, h0]; rfl
      rw [e1] at h
      have e2 : urlToFilename tbl (bytes ".pdf") = bytes "pdf.pdf" := by
        rw [urlToFilename_ascii tbl id _ (by decide)]; decide
      rw [e2] at h
      revert h; decide
    have hg : goodFrom false (safeName tbl s) = true := by
      rcases safeName_good tbl s with h1 | h1
      · exact absurd h1 hstem
      · exact h1
    refine ⟨?_, ?_⟩
    · intro e
      rw [urlToFilename_eq] at e
      have e' : safeName tbl s ++ bytes ".pdf" = [] ++ bytes ".pdf" := by simpa using e
      exact hstem (List.append_cancel_right e')
    · cases hc : contains (urlToFilename tbl s) underscorePdf with
      | false => rfl
      | true =>
        exfalso
        rw [urlToFilename_eq] at hc
        have hc' := contains_append_dotPdf _ hc
        have hlt := (removeAllAux_length _ _ (Nat.le_refl _)).2 hc'
        rw [urlToFilename_eq tbl s, urlToFilename_eq tbl (safeName tbl s ++ bytes ".pdf"),
          safeName_of_good tbl _ hg] at h
        have := congrArg List.length (List.append_cancel_right h)
        omega
  · rintro ⟨hne, hc⟩
    have hstem : safeName tbl s ≠ [] := by
      intro h; apply hne; rw [urlToFilename_eq, h]; rfl
    have hg : goodFrom false (safeName tbl s) = true := by
      rcases safeName_good tbl s with h | h
      · exact absurd h hstem
      · exact h
    have hc' : contains (safeName tbl s) underscorePdf = false := by
      rw [urlToFilename_eq] at hc
      exact contains_append_false _ _ _ (by decide) hc
    rw [urlToFilename_eq tbl s, urlToFilename_eq tbl (safeName tbl s ++ bytes ".pdf"),
      safeName_of_good tbl _ hg, removeAllAux_of_not_contains _ hc']

/-- The amended C2 at the input `a-b.pdf`, whose file name is `a_b.pdf`. -/
theorem urlToFilename_idempotent_iff_witness :
    urlToFilename id (bytes "a-b.pdf") ≠ bytes ".pdf" ∧
    contains (urlToFilename id (bytes "a-b.pdf")) (bytes "_pdf") = false ∧
    urlToFilename id (urlToFilename id (bytes "a-b.pdf")) = urlToFilename id (bytes "a-b.pdf") :=
  ⟨by decide, by decide,
    (urlToFilename_idempotent_iff id (bytes "a-b.pdf")).mpr ⟨by decide, by decide⟩⟩

/-- **C2 (as stated) fails.** For every case table the synthesis is not
idempotent at the empty string (`""` gives `.pdf`, which gives `pdf.pdf`) nor
at `a_p_pdfdf` (which gives `a_pdf.pdf`, which gives `a.pdf`). -/
theorem urlToFilename_not_idempotent :
    ¬ ∃ tbl : Nat → Nat,
      urlToFilename tbl (urlToFilename tbl (bytes "")) = urlToFilename tbl (bytes "") ∨
      urlToFilename tbl (urlToFilename tbl (bytes "a_p_pdfdf")) =
        urlToFilename tbl (bytes "a_p_pdfdf") := by
  rintro ⟨tbl, h⟩
  have e1 : urlToFilename tbl (bytes "") = bytes ".pdf" := by
    rw [urlToFilename_ascii tbl id _ (by decide)]; decide
  have e2 : urlToFilename tbl (bytes ".pdf") = bytes "pdf.pdf" := by
    rw [urlToFilename_ascii tbl id _ (by decide)]; decide
  have e3 : urlToFilename tbl (bytes "a_p_pdfdf") = bytes "a_pdf.pdf" := by
    rw [urlToFilename_ascii tbl id _ (by decide)]; decide
  have e4 : urlToFilename tbl (bytes "a_pdf.pdf") = bytes "a.pdf" := by
    rw [urlToFilename_ascii tbl id _ (by decide)]; decide
  rw [e1, e2, e3, e4] at h
  revert h; decide

/-! ## Link extraction -/

theorem hasPrefix_iff (s p : Str) : hasPrefix s p = true ↔ ∃ rest, s = p ++ rest := by
  unfold hasPrefix
  rw [ List.isPrefixOf_iff_prefix]
  constructor
  · rintro ⟨t, ht⟩; exact ⟨t, ht.symm⟩
  · rintro ⟨t, ht⟩; exact ⟨t, ht.symm⟩

theorem matchLinkTail_cons (c : Nat) (cs : Str) :
    matchLinkTail (c :: cs) =
      match (if c ≠ quote then matchLinkTail cs else none) with
      | some cap => some (c :: cap)
      | none => if hasPrefix (c :: cs) pdfClose then some (bytes ".pdf") else none := rfl

theorem matchLinkTail_some : ∀ (s cap : Str), matchLinkTail s = some cap →
    ∃ x rest, cap = x ++ bytes ".pdf" ∧ s = cap ++ quote :: rest ∧ quote ∉ cap := by
  intro s
  induction s with
  | nil => intro cap h; simp [matchLinkTail] at h
  | cons c cs ih =>
    intro cap h
    rw [matchLinkTail_cons] at h
    by_cases hq : c ≠ quote
    · rw [if_pos hq] at h
      cases hm : matchLinkTail cs with
      | some cap' =>
        rw [hm] at h
        simp only [Option.some.injEq] at h
        obtain ⟨x, rest, hx, hs, hn⟩ := ih cap' hm
        refine ⟨c :: x, rest, ?_, ?_, ?_⟩
        · rw [← h, hx]; rfl
        · rw [← h, hs]; rfl
        · rw [← h]; simp only [List.mem_cons, not_or]; exact ⟨fun e => hq e.symm, hn⟩
      | none =>
        rw [hm] at h
        simp only at h
        by_cases hp : hasPrefix (c :: cs) pdfClose = true
        · rw [if_pos hp] at h
          simp only [Option.some.injEq] at h
          obtain ⟨rest, hr⟩ := (hasPrefix_iff _ _).mp hp
          refine ⟨[], rest, ?_, ?_, ?_⟩
          · rw [← h]; rfl
          · rw [hr, ← h]; rfl
          · rw [← h]; decide
        · rw [if_neg hp] at h; simp at h
    · rw [if_neg hq] at h
      simp only at h
      by_cases hp : hasPrefix (c :: cs) pdfClose = true
      · exfalso
        obtain ⟨rest, hr⟩ := (hasPrefix_iff _ _).mp hp
        have : c = 46 := by
          have := congrArg List.head? hr
          simpa [pdfClose, bytes, encodeRune] using this
        apply hq; intro _; simp [this, quote] at hq
      · rw [if_neg hp] at h; simp at h

theorem matchLinkAt_some (s : Str) (m : List Str) (h : matchLinkAt s = some m) :
    ∃ stem rest, stem ≠ [] ∧ quote ∉ stem ++ bytes ".pdf" ∧
      m = [hrefOpen ++ (stem ++ bytes ".pdf") ++ [quote], stem ++ bytes ".pdf"] ∧
      s = hrefOpen ++ (stem ++ bytes ".pdf") ++ quote :: rest := by
  unfold matchLinkAt at h
  by_cases hp : hasPrefix s hrefOpen = true
  · rw [if_pos hp] at h
    obtain ⟨t, ht⟩ := (hasPrefix_iff _ _).mp hp
    have hd : s.drop hrefOpen.length = t := by rw [ht]; simp
    rw [hd] at h
    cases t with
    | nil => simp at h
    | cons c cs =>
      simp only at h
      by_cases hq : c ≠ quote
      · rw [if_pos hq] at h
        cases hm : matchLinkTail cs with
        | none => rw [hm] at h; simp at h
        | some cap =>
          rw [hm] at h
          simp only [Option.map_some', Option.some.injEq] at h
          obtain ⟨x, rest, hx, hs, hn⟩ := matchLinkTail_some cs cap hm
          refine ⟨c :: x, rest, by simp, ?_, ?_, ?_⟩
          · rw [List.cons_append, ← hx]
            simp only [List.mem_cons, not_or]; exact ⟨fun e => hq e.symm, hn⟩
          · rw [← h, List.cons_append, ← hx]
          · rw [ht, hs, List.cons_append, ← hx]; simp
      · rw [if_neg hq] at h; simp at h
  · rw [if_neg hp] at h; simp at h

theorem findAllLinksAux_mem : ∀ (s : Str) (k : Nat) (m : List Str), m ∈ findAllLinksAux k s →
    ∃ pre suf, s = pre ++ suf ∧ matchLinkAt suf = some m := by
  intro s
  induction s with
  | nil => intro k m h; cases k <;> simp [findAllLinksAux] at h
  | cons c cs ih =>
    intro k m h
    cases k with
    | succ n =>
      obtain ⟨pre, suf, hs, hm⟩ := ih n m (by simpa [findAllLinksAux] using h)
      exact ⟨c :: pre, suf, by rw [hs]; rfl, hm⟩
    | zero =>
      simp only [findAllLinksAux] at h
      cases hm : matchLinkAt (c :: cs) with
      | none =>
        rw [hm] at h
        obtain ⟨pre, suf, hs, hm'⟩ := ih 0 m h
        exact ⟨c :: pre, suf, by rw [hs]; rfl, hm'⟩
      | some m' =>
        rw [hm] at h
        simp only [List.mem_cons] at h
        rcases h with h | h
        · exact ⟨[], c :: cs, rfl, by rw [hm, h]⟩
        · obtain ⟨pre, suf, hs, hm'⟩ := ih _ m h
          exact ⟨c :: pre, suf, by rw [hs]; rfl, hm'⟩

theorem extract_foldl_mem (link : Str) : ∀ (ms : List (List Str)) (acc : List Str),
    link ∈ ms.foldl (fun pdfLinks m => if m.length > 1 then pdfLinks ++ [m.getD 1 []]
      else pdfLinks) acc →
    link ∈ acc ∨ ∃ m ∈ ms, link = m.getD 1 [] := by
  intro ms
  induction ms with
  | nil => intro acc h; exact Or.inl h
  | cons m ms ih =>
    intro acc h
    rw [List.foldl_cons] at h
    rcases ih _ h with h' | ⟨m', hm', e⟩
    · by_cases hl : m.length > 1
      · rw [if_pos hl, List.mem_append] at h'
        rcases h' with h' | h'
        · exact Or.inl h'
        · exact Or.inr ⟨m, List.mem_cons_self _ _, by simpa using h'⟩
      · rw [if_neg hl] at h'; exact Or.inl h'
    · exact Or.inr ⟨m', List.mem_cons_of_mem _ hm', e⟩

theorem extractPDFUrls_sound (text link : Str) (h : link ∈ extractPDFUrls text) :
    ∃ a c stem, text = a ++ hrefOpen ++ link ++ [quote] ++ c ∧ link = stem ++ bytes ".pdf" ∧
      stem ≠ [] ∧ quote ∉ link := by
  rcases extract_foldl_mem link _ _ h with h' | ⟨m, hm, e⟩
  · simp at h'
  · obtain ⟨pre, suf, hs, hm'⟩ := findAllLinksAux_mem _ _ _ hm
    obtain ⟨stem, rest, hne, hq, hmm, hsuf⟩ := matchLinkAt_some suf m hm'
    have hl : link = stem ++ bytes ".pdf" := by rw [e, hmm]; rfl
    refine ⟨pre, rest, stem, ?_, hl, hne, hl ▸ hq⟩
    rw [hs, hsuf, hl]; simp

theorem hrefOpen_eq : hrefOpen = [104, 114, 101, 102, 61, 34] := by decide

theorem pdfClose_eq : pdfClose = [46, 112, 100, 102, 34] := by decide

theorem hasPrefix_append_href (x : Nat) (p t : Str)
    (h : hasPrefix (x :: p) hrefOpen = false) :
    hasPrefix (x :: p ++ hrefOpen ++ t) hrefOpen = false := by
  rw [hrefOpen_eq] at h ⊢
  simp only [hasPrefix] at h ⊢
  match p, h with
  | [], _ => simp [List.isPrefixOf]
  | [a], _ => simp [List.isPrefixOf]
  | [a, b], _ => simp [List.isPrefixOf]
  | [a, b, c], _ => simp [List.isPrefixOf]
  | [a, b, c, d], _ => simp [List.isPrefixOf]
  | a :: b :: c :: d :: e :: rest, h => simpa [List.isPrefixOf] using h

theorem findAllLinksAux_zero_cons (c : Nat) (cs : Str) :
    findAllLinksAux 0 (c :: cs) =
      match matchLinkAt (c :: cs) with
      | some m => m :: findAllLinksAux ((m.headD []).length - 1) cs
      | none => findAllLinksAux 0 cs := rfl

theorem matchLinkAt_none (s : Str) (h : hasPrefix s hrefOpen = false) : matchLinkAt s = none := by
  unfold matchLinkAt
  rw [if_neg (by simp [h])]

theorem findAllLinksAux_skip (pre t : Str) (h : contains pre hrefOpen = false) :
    findAllLinksAux 0 (pre ++ hrefOpen ++ t) = findAllLinksAux 0 (hrefOpen ++ t) := by
  induction pre with
  | nil => rfl
  | cons c cs ih =>
    obtain ⟨hp, hcs⟩ := contains_cons_false h
    have hp' := hasPrefix_append_href c cs t hp
    rw [List.cons_append, List.cons_append] at hp' ⊢
    rw [findAllLinksAux_zero_cons, matchLinkAt_none _ hp']
    exact ih hcs

theorem findAllLinksAux_nolink (p : Str) (h : contains p hrefOpen = false) :
    findAllLinksAux 0 p = [] := by
  induction p with
  | nil => rfl
  | cons c cs ih =>
    obtain ⟨hp, hcs⟩ := contains_cons_false h
    rw [findAllLinksAux_zero_cons, matchLinkAt_none _ hp]
    exact ih hcs

theorem matchLinkTail_pdfClose (rest : Str) :
    matchLinkTail (bytes ".pdf" ++ quote :: rest) = some (bytes ".pdf") := by
  rw [bytes_dotPdf]
  simp [matchLinkTail_cons, matchLinkTail, hasPrefix, pdfClose_eq, quote, List.isPrefixOf,
    bytes_dotPdf]

theorem matchLinkTail_complete (x rest : Str) (hq : quote ∉ x) :
    matchLinkTail (x ++ bytes ".pdf" ++ quote :: rest) = some (x ++ bytes ".pdf") := by
  induction x with
  | nil => exact matchLinkTail_pdfClose rest
  | cons c cs ih =>
    have hc : c ≠ quote := fun e => hq (by simp [e])
    have hcs : quote ∉ cs := fun e => hq (List.mem_cons_of_mem _ e)
    rw [List.cons_append, List.cons_append, matchLinkTail_cons, if_pos hc, ih hcs]

theorem matchLinkAt_complete (stem rest : Str) (hne : stem ≠ []) (hq : quote ∉ stem) :
    matchLinkAt (hrefOpen ++ (stem ++ bytes ".pdf") ++ quote :: rest) =
      some [hrefOpen ++ (stem ++ bytes ".pdf") ++ [quote], stem ++ bytes ".pdf"] := by
  cases stem with
  | nil => exact absurd rfl hne
  | cons c cs =>
    have hc : c ≠ quote := fun e => hq (by simp [e])
    have hcs : quote ∉ cs := fun e => hq (List.mem_cons_of_mem _ e)
    unfold matchLinkAt
    have hp : hasPrefix (hrefOpen ++ (c :: cs ++ bytes ".pdf") ++ quote :: rest) hrefOpen = true :=
      (hasPrefix_iff _ _).mpr ⟨(c :: cs ++ bytes ".pdf") ++ quote :: rest, by simp⟩
    rw [if_pos hp]
    have hd : (hrefOpen ++ (c :: cs ++ bytes ".pdf") ++ quote :: rest).drop hrefOpen.length =
        c :: (cs ++ bytes ".pdf" ++ quote :: rest) := by simp
    rw [hd]
    simp only []
    rw [if_pos hc, matchLinkTail_complete cs rest hcs]
    rfl

theorem findAllLinksAux_drop : ∀ (s : Str) (k : Nat),
    findAllLinksAux k s = findAllLinksAux 0 (s.drop k) := by
  intro s
  induction s with
  | nil => intro k; cases k <;> rfl
  | cons c cs ih =>
    intro k
    cases k with
    | zero => rfl
    | succ n => show findAllLinksAux n cs = _; rw [ih n]; rfl

theorem findAllLinksAux_first (pre stem rest : Str) (hpre : contains pre hrefOpen = false)
    (hne : stem ≠ []) (hq : quote ∉ stem) :
    findAllLinksAux 0 (pre ++ hrefOpen ++ (stem ++ bytes ".pdf" ++ quote :: rest)) =
      [hrefOpen ++ (stem ++ bytes ".pdf") ++ [quote], stem ++ bytes ".pdf"] ::
        findAllLinksAux 0 rest := by
  rw [findAllLinksAux_skip pre _ hpre]
  have e : hrefOpen ++ (stem ++ bytes ".pdf" ++ quote :: rest) =
      104 :: ([114, 101, 102, 61, 34] ++ (stem ++ bytes ".pdf" ++ quote :: rest)) := by
    rw [hrefOpen_eq]; rfl
  have hm := matchLinkAt_complete stem rest hne hq
  have e2 : hrefOpen ++ (stem ++ bytes ".pdf") ++ quote :: rest =
      hrefOpen ++ (stem ++ bytes ".pdf" ++ quote :: rest) := by simp
  rw [e2, e] at hm
  rw [e, findAllLinksAux_zero_cons, hm]
  simp only [List.headD_cons]
  rw [findAllLinksAux_drop]
  congr 2
  rw [hrefOpen_eq]
  simp [List.drop_append]

theorem extract_foldl_acc : ∀ (ms : List (List Str)) (acc : List Str),
    ms.foldl (fun pdfLinks m => if m.length > 1 then pdfLinks ++ [m.getD 1 []]
      else pdfLinks) acc =
    acc ++ ms.foldl (fun pdfLinks m => if m.length > 1 then pdfLinks ++ [m.getD 1 []]
      else pdfLinks) [] := by
  intro ms
  induction ms with
  | nil => intro acc; simp
  | cons m ms ih =>
    intro acc
    rw [List.foldl_cons, List.foldl_cons, ih, ih (if m.length > 1 then [] ++ [m.getD 1 []] else [])]
    by_cases hl : m.length > 1
    · simp [hl]
    · simp [hl]

theorem extractPDFUrls_first (pre stem rest : Str) (hpre : contains pre hrefOpen = false)
    (hne : stem ≠ []) (hq : quote ∉ stem) :
    extractPDFUrls (pre ++ hrefOpen ++ (stem ++ bytes ".pdf" ++ quote :: rest)) =
      (stem ++ bytes ".pdf") :: extractPDFUrls rest := by
  unfold extractPDFUrls
  rw [findAllLinksAux_first pre stem rest hpre hne hq, List.foldl_cons, extract_foldl_acc]
  simp

theorem extractPDFUrls_nolink (p : Str) (h : contains p hrefOpen = false) :
    extractPDFUrls p = [] := by
  unfold extractPDFUrls
  rw [findAllLinksAux_nolink p h]
  rfl

theorem matchLinkAt_none_of_no_match (s : Str) (h : ¬ ∃ stem rest, LinkMatchAt s stem rest) :
    matchLinkAt s = none := by
  cases hm : matchLinkAt s with
  | none => rfl
  | some m =>
    exfalso
    obtain ⟨stem, rest, hne, hq, _, hs⟩ := matchLinkAt_some s m hm
    exact h ⟨stem, rest, hs, hne, fun hmem => hq (List.mem_append_left _ hmem)⟩

theorem extractPDFUrls_nil : extractPDFUrls [] = [] := rfl

theorem extractPDFUrls_advance (c : Nat) (cs : Str)
    (h : ¬ ∃ stem rest, LinkMatchAt (c :: cs) stem rest) :
    extractPDFUrls (c :: cs) = extractPDFUrls cs := by
  unfold extractPDFUrls
  rw [findAllLinksAux_zero_cons, matchLinkAt_none_of_no_match _ h]

theorem extractPDFUrls_match (s stem rest : Str) (h : LinkMatchAt s stem rest) :
    extractPDFUrls s = (stem ++ bytes ".pdf") :: extractPDFUrls rest := by
  obtain ⟨hs, hne, hq⟩ := h
  have := extractPDFUrls_first [] stem rest rfl hne hq
  rw [hs]
  simpa using this

theorem extractPDFUrls_skip : ∀ (pre t : Str),
    (∀ i, i < pre.length → ¬ ∃ stem rest, LinkMatchAt ((pre ++ t).drop i) stem rest) →
    extractPDFUrls (pre ++ t) = extractPDFUrls t := by
  intro pre
  induction pre with
  | nil => intro t _; rfl
  | cons c cs ih =>
    intro t h
    rw [List.cons_append, extractPDFUrls_advance c (cs ++ t) (by simpa using h 0 (by simp))]
    apply ih
    intro i hi
    have := h (i + 1) (by simpa using hi)
    simpa using this

theorem linkMatchAt_length {s stem rest : Str} (h : LinkMatchAt s stem rest) :
    rest.length < s.length := by
  rw [h.1]; simp only [List.length_append, List.length_cons]; omega

theorem extractPDFUrls_unique (f : Str → List Str) (h0 : f [] = [])
    (h1 : ∀ (c : Nat) (cs : Str), (¬ ∃ stem rest, LinkMatchAt (c :: cs) stem rest) →
      f (c :: cs) = f cs)
    (h2 : ∀ s stem rest : Str, LinkMatchAt s stem rest →
      f s = (stem ++ bytes ".pdf") :: f rest) :
    ∀ text : Str, f text = extractPDFUrls text := by
  have key : ∀ (n : Nat) (text : Str), text.length ≤ n → f text = extractPDFUrls text := by
    intro n
    induction n with
    | zero =>
      intro text ht
      have : text = [] := List.length_eq_zero.mp (Nat.le_zero.mp ht)
      subst this; rw [h0]; rfl
    | succ n ih =>
      intro text ht
      cases text with
      | nil => rw [h0]; rfl
      | cons c cs =>
        by_cases hm : ∃ stem rest, LinkMatchAt (c :: cs) stem rest
        · obtain ⟨stem, rest, hm⟩ := hm
          have hl := linkMatchAt_length hm
          rw [h2 _ _ _ hm, extractPDFUrls_match _ _ _ hm, ih rest (by simp at ht hl; omega)]
        · rw [h1 c cs hm, extractPDFUrls_advance c cs hm, ih cs (by simpa using ht)]
  intro text
  exact key text.length text (Nat.le_refl _)

/-- **C5.** Link extraction returns the captures of all matches of
`href="([^"]+\.pdf)"` in order of occurrence: the documented example, the
single-quote and upper-case limitations; each link returned is the capture of
an occurrence of `href="`, a non-empty stem without `"`, `.pdf`, `"`; the
leftmost such occurrence gives the first link and the extraction goes on
behind it; a text with no `href="` followed later by `.pdf"` yields no link.
The scan is characterised completely: where no match begins the extraction
moves on by one byte (also at an `href="` that is no PDF link), where a match
begins its capture is returned and the extraction goes on behind the match,
and `extractPDFUrls` is the only function that does so. -/
theorem extractPDFUrls_pattern :
    extractPDFUrls (bytes "<a href=\"/docs/sheet.pdf\">") = [bytes "/docs/sheet.pdf"] ∧
    extractPDFUrls (bytes "<a href='x.pdf'>") = [] ∧
    extractPDFUrls (bytes "<a href=\"x.PDF\">") = [] ∧
    (∀ text link : Str, link ∈ extractPDFUrls text →
      ∃ a c stem, text = a ++ hrefOpen ++ link ++ [quote] ++ c ∧ link = stem ++ bytes ".pdf" ∧
        stem ≠ [] ∧ quote ∉ link) ∧
    (∀ pre stem rest : Str, contains pre (bytes "href=\"") = false → stem ≠ [] → quote ∉ stem →
      extractPDFUrls (pre ++ bytes "href=\"" ++ (stem ++ bytes ".pdf" ++ quote :: rest)) =
        (stem ++ bytes ".pdf") :: extractPDFUrls rest) ∧
    (∀ text : Str, (¬ ∃ a b c, text = a ++ bytes "href=\"" ++ b ++ bytes ".pdf\"" ++ c) →
      extractPDFUrls text = []) ∧
    extractPDFUrls [] = [] ∧
    (∀ (c : Nat) (cs : Str), (¬ ∃ stem rest, LinkMatchAt (c :: cs) stem rest) →
      extractPDFUrls (c :: cs) = extractPDFUrls cs) ∧
    (∀ s stem rest : Str, LinkMatchAt s stem rest →
      extractPDFUrls s = (stem ++ bytes ".pdf") :: extractPDFUrls rest) ∧
    (∀ pre t : Str,
      (∀ i, i < pre.length → ¬ ∃ stem rest, LinkMatchAt ((pre ++ t).drop i) stem rest) →
      extractPDFUrls (pre ++ t) = extractPDFUrls t) ∧
    (∀ f : Str → List Str, f [] = [] →
      (∀ (c : Nat) (cs : Str), (¬ ∃ stem rest, LinkMatchAt (c :: cs) stem rest) →
        f (c :: cs) = f cs) →
      (∀ s stem rest : Str, LinkMatchAt s stem rest → f s = (stem ++ bytes ".pdf") :: f rest) →
      ∀ text : Str, f text = extractPDFUrls text) ∧
    extractPDFUrls (bytes
      "<a href=\"/about.html\">About</a> <a href=\"/docs/sheet.pdf\">SDS</a>") =
      [bytes "/docs/sheet.pdf"] ∧
    extractPDFUrls (bytes ("<a href=\"a.pdf\"><a href=\"x.html\"> <a href=\"\"> href=\".pdf\" " ++
      "<a href=\"b.pdf.pdf\">href=\"c.pdf")) = [bytes "a.pdf", bytes "b.pdf.pdf"] := by
  refine ⟨by decide, by decide, by decide, extractPDFUrls_sound, extractPDFUrls_first, ?_,
    extractPDFUrls_nil, extractPDFUrls_advance, extractPDFUrls_match, extractPDFUrls_skip,
    extractPDFUrls_unique, by decide, by decide⟩
  intro text hno
  cases hx : extractPDFUrls text with
  | nil => rfl
  | cons link links =>
    exfalso
    apply hno
    obtain ⟨a, c, stem, ht, hl, _, _⟩ := extractPDFUrls_sound text link (by rw [hx]; simp)
    refine ⟨a, stem, c, ?_⟩
    rw [ht, hl]
    show _ = a ++ hrefOpen ++ stem ++ pdfClose ++ c
    have : pdfClose = bytes ".pdf" ++ [quote] := by decide
    rw [this]; simp

/-! ## URLs -/

theorem getSchemeAux_ascii (raw : Str) : ∀ (s acc scheme rest : Str),
    (∀ c ∈ acc, c < 0x80) → getSchemeAux raw acc s = some (scheme, rest) →
    ∀ c ∈ scheme, c < 0x80 := by
  intro s
  induction s with
  | nil =>
    intro acc scheme rest _ h c hc
    simp only [getSchemeAux, Option.some.injEq, Prod.mk.injEq] at h
    rw [← h.1] at hc; simp at hc
  | cons b bs ih =>
    intro acc scheme rest hacc h
    unfold getSchemeAux at h
    have hnil : ∀ c ∈ ([] : Str), c < 0x80 := by simp
    split_ifs at h with h1 h2 h3 h4 h5
    · refine ih _ _ _ ?_ h
      intro c hc
      rcases List.mem_append.mp hc with hc | hc
      · exact hacc c hc
      · simp at hc; omega
    · simp only [Option.some.injEq, Prod.mk.injEq] at h; rw [← h.1]; exact hnil
    · refine ih _ _ _ ?_ h
      intro c hc
      rcases List.mem_append.mp hc with hc | hc
      · exact hacc c hc
      · simp at hc; omega
    · simp only [Option.some.injEq, Prod.mk.injEq] at h; rw [← h.1]; exact hacc
    · simp only [Option.some.injEq, Prod.mk.injEq] at h; rw [← h.1]; exact hnil

theorem parse_tbl (tbl tbl' : Nat → Nat) (rawURL : Str) (viaRequest : Bool) :
    parse tbl rawURL viaRequest = parse tbl' rawURL viaRequest := by
  unfold parse
  cases h : getScheme rawURL with
  | none => rfl
  | some p =>
    obtain ⟨scheme, rest⟩ := p
    have ha := getSchemeAux_ascii rawURL rawURL [] scheme rest (by simp) h
    simp only [toLower_ascii tbl scheme ha, toLower_ascii tbl' scheme ha]

theorem urlParse_tbl (tbl tbl' : Nat → Nat) (rawURL : Str) :
    urlParse tbl rawURL = urlParse tbl' rawURL := by
  simp only [urlParse, parse_tbl tbl tbl']

theorem hasDomain_tbl (tbl tbl' : Nat → Nat) (rawURL : Str) :
    hasDomain tbl rawURL = hasDomain tbl' rawURL := by
  unfold hasDomain
  rw [urlParse_tbl tbl tbl']

theorem isUrlValid_tbl (tbl tbl' : Nat → Nat) (uri : Str) :
    isUrlValid tbl uri = isUrlValid tbl' uri := by
  unfold isUrlValid urlParseRequestURI
  rw [parse_tbl tbl tbl']

theorem extractBaseDomain_tbl (tbl tbl' : Nat → Nat) (inputUrl : Str) :
    extractBaseDomain tbl inputUrl = extractBaseDomain tbl' inputUrl := by
  unfold extractBaseDomain
  rw [urlParse_tbl tbl tbl']

/-- **C6.** `hasDomain` is true exactly when the string parses as a URL with
a non-empty host: true on `https://x.com/f.pdf`, false on `/product/f.pdf`. -/
theorem hasDomain_iff_host (tbl : Nat → Nat) :
    (∀ s : Str, hasDomain tbl s = true ↔ ∃ u : URL, urlParse tbl s = some u ∧ u.Host ≠ []) ∧
    hasDomain tbl (bytes "https://x.com/f.pdf") = true ∧
    hasDomain tbl (bytes "/product/f.pdf") = false := by
  refine ⟨?_, ?_, ?_⟩
  · intro s
    unfold hasDomain
    cases h : urlParse tbl s with
    | none => simp
    | some u => simp
  · rw [hasDomain_tbl tbl id]; decide
  · rw [hasDomain_tbl tbl id]; decide

/-- **C9 (the code at the documented examples).** For the host
`sub.example.com` the result is `example`; for the host `blog.my-site.co.uk`
the result is `co`, not the `my-site` the comment in the code promises. -/
theorem extractBaseDomain_examples (tbl : Nat → Nat) :
    extractBaseDomain tbl (bytes "https://sub.example.com/page") = bytes "example" ∧
    extractBaseDomain tbl (bytes "https://blog.my-site.co.uk/page") = bytes "co" ∧
    extractBaseDomain tbl (bytes "https://blog.my-site.co.uk/page") ≠ bytes "my-site" := by
  refine ⟨?_, ?_, ?_⟩
  · rw [extractBaseDomain_tbl tbl id]; decide
  · rw [extractBaseDomain_tbl tbl id]; decide
  · rw [extractBaseDomain_tbl tbl id]; decide

theorem sanitize_map_congr : ∀ (s1 s2 : Str), sameUpToSymbols s1 s2 = true →
    (∀ c ∈ s1, c < 0x80 ∧ c ≠ sep) →
    (∀ c ∈ s2, c < 0x80 ∧ c ≠ sep) ∧
    (s1.map asciiToLower).map (fun b => if isLowerAlnum b then b else underscore) =
      (s2.map asciiToLower).map (fun b => if isLowerAlnum b then b else underscore) := by
  intro s1
  induction s1 with
  | nil =>
    intro s2 h _
    cases s2 with
    | nil => exact ⟨by simp, rfl⟩
    | cons b s2 => simp [sameUpToSymbols] at h
  | cons a s1 ih =>
    intro s2 h h1
    cases s2 with
    | nil => simp [sameUpToSymbols] at h
    | cons b s2 =>
      simp only [sameUpToSymbols, Bool.and_eq_true, Bool.or_eq_true, beq_iff_eq] at h
      obtain ⟨hab, hrest⟩ := h
      obtain ⟨ih1, ih2⟩ := ih s2 hrest (fun c hc => h1 c (List.mem_cons_of_mem _ hc))
      have ha := h1 a (List.mem_cons_self _ _)
      rcases hab with hab | ⟨hsa, hsb⟩
      · subst hab
        refine ⟨?_, ?_⟩
        · intro c hc
          rcases List.mem_cons.mp hc with hc | hc
          · subst hc; exact ha
          · exact ih1 c hc
        · simp only [List.map_cons, ih2]
      · simp only [isSymbolByte, Bool.and_eq_true, decide_eq_true_eq, Bool.not_eq_true',
          Bool.or_eq_false_iff, Bool.and_eq_false_iff, decide_eq_false_iff_not, bne_iff_ne,
          ne_eq] at hsa hsb
        refine ⟨?_, ?_⟩
        · intro c hc
          rcases List.mem_cons.mp hc with hc | hc
          · subst hc; exact ⟨hsb.1.1, hsb.2⟩
          · exact ih1 c hc
        · simp only [List.map_cons, ih2]
          congr 1
          have la : asciiToLower a = a := by unfold asciiToLower; rw [if_neg (by omega)]
          have lb : asciiToLower b = b := by unfold asciiToLower; rw [if_neg (by omega)]
          have ga : isLowerAlnum a = false := by
            simp only [isLowerAlnum, Bool.or_eq_false_iff, Bool.and_eq_false_iff,
              decide_eq_false_iff_not]
            omega
          have gb : isLowerAlnum b = false := by
            simp only [isLowerAlnum, Bool.or_eq_false_iff, Bool.and_eq_false_iff,
              decide_eq_false_iff_not]
            omega
          simp [la, lb, ga, gb]

theorem sanitize_of_name (tbl : Nat → Nat) (s : Str) (h : ∀ c ∈ s, c < 0x80 ∧ c ≠ sep)
    (hne : s ≠ []) :
    replaceNonAlnum (getFilename (toLower tbl s)) =
      (s.map asciiToLower).map (fun b => if isLowerAlnum b then b else underscore) := by
  rw [toLower_ascii tbl s (fun c hc => (h c hc).1)]
  have hl : ∀ c ∈ s.map asciiToLower, c < 0x80 ∧ c ≠ sep := by
    intro c hc
    obtain ⟨a, ha, rfl⟩ := List.mem_map.mp hc
    have := h a ha
    unfold asciiToLower sep at *
    split_ifs <;> omega
  have hne' : s.map asciiToLower ≠ [] := by simpa using hne
  rw [show getFilename (s.map asciiToLower) = s.map asciiToLower from
    filepathBase_of_no_sep _ hne' (fun hm => (hl _ hm).2 rfl)]
  exact replaceNonAlnum_ascii _ (fun c hc => (hl c hc).1)

theorem urlToFilename_same_up_to_symbols (tbl : Nat → Nat) (s1 s2 : Str)
    (h1 : ∀ c ∈ s1, c < 0x80 ∧ c ≠ sep) (h : sameUpToSymbols s1 s2 = true) :
    urlToFilename tbl s1 = urlToFilename tbl s2 := by
  obtain ⟨h2, hm⟩ := sanitize_map_congr s1 s2 h h1
  by_cases hne : s1 = []
  · subst hne
    cases s2 with
    | nil => rfl
    | cons b s2 => simp [sameUpToSymbols] at h
  · have hne2 : s2 ≠ [] := by
      intro e; subst e
      cases s1 with
      | nil => exact hne rfl
      | cons a s1 => simp [sameUpToSymbols] at h
    have e : replaceNonAlnum (getFilename (toLower tbl s1)) =
        replaceNonAlnum (getFilename (toLower tbl s2)) := by
      rw [sanitize_of_name tbl s1 h1 hne, sanitize_of_name tbl s2 h2 hne2, hm]
    rw [urlToFilename_eq, urlToFilename_eq]
    simp only [safeName, e]

/-- **C10.** Names that differ only in their non-alphanumeric characters get
the same file name: `a-b.pdf` and `a_b.pdf` both give `a_b.pdf` (the `.pdf` of
the source becomes `_pdf`, is stripped, and `.pdf` is appended again), and so
do any two ASCII names without a separator that agree up to symbol bytes. -/
theorem urlToFilename_collision (tbl : Nat → Nat) :
    urlToFilename tbl (bytes "a-b.pdf") = bytes "a_b.pdf" ∧
    urlToFilename tbl (bytes "a_b.pdf") = bytes "a_b.pdf" ∧
    replaceNonAlnum (getFilename (toLower tbl (bytes "a-b.pdf"))) = bytes "a_b_pdf" ∧
    replaceNonAlnum (getFilename (toLower tbl (bytes "a_b.pdf"))) = bytes "a_b_pdf" ∧
    removeSubstring (bytes "a_b_pdf") (bytes "_pdf") = bytes "a_b" ∧
    getFileExtension (bytes "a_b") ≠ bytes ".pdf" ∧
    bytes "a_b" ++ bytes ".pdf" = bytes "a_b.pdf" ∧
    sameUpToSymbols (bytes "a-b.pdf") (bytes "a_b.pdf") = true ∧
    (∀ s1 s2 : Str, (∀ c ∈ s1, c < 0x80 ∧ c ≠ sep) → sameUpToSymbols s1 s2 = true →
      urlToFilename tbl s1 = urlToFilename tbl s2) := by
  refine ⟨?_, ?_, ?_, ?_, by decide, by decide, by decide, by decide,
    urlToFilename_same_up_to_symbols tbl⟩
  · rw [urlToFilename_ascii tbl id _ (by decide)]; decide
  · rw [urlToFilename_ascii tbl id _ (by decide)]; decide
  · rw [toLower_ascii tbl _ (by decide)]; decide
  · rw [toLower_ascii tbl _ (by decide)]; decide

/-! ## Downloads -/

theorem urlToFilename_bytes (tbl : Nat → Nat) (s : Str) :
    ∀ c ∈ urlToFilename tbl s, isNameByte c = true ∨ c = 46 := by
  intro c hc
  rw [urlToFilename_eq, bytes_dotPdf, List.mem_append] at hc
  rcases hc with hc | hc
  · exact Or.inl (safeName_bytes tbl s c hc)
  · simp at hc; rcases hc with h | h | h | h <;> subst h <;> simp [isNameByte, isLowerAlnum]

theorem toLower_urlToFilename (tbl : Nat → Nat) (s : Str) :
    toLower tbl (urlToFilename tbl s) = urlToFilename tbl s :=
  toLower_of_lower tbl _ (urlToFilename_bytes tbl s)

theorem downloadPDF_of_exists (tbl : Nat → Nat) (env : Env) (u d : Str) (w : World)
    (h : fileExists w (filepathJoin [d, urlToFilename tbl u]) = true) :
    downloadPDF tbl env u d w =
      (false, w.logging (.alreadyExists (filepathJoin [d, urlToFilename tbl u]))) := by
  simp only [downloadPDF, toLower_urlToFilename, h, if_true]

/-- **C3.** When a regular file already exists at the target path,
`downloadPDF` returns `false`, sends no HTTP request and leaves the file
system unchanged; it only logs that the file exists. -/
theorem downloadPDF_skips_existing (tbl : Nat → Nat) (env : Env) (u d : Str) (w : World)
    (data : Str) (h : w.fs (filepathJoin [d, urlToFilename tbl u]) = some (Node.file data)) :
    (downloadPDF tbl env u d w).1 = false ∧
    (downloadPDF tbl env u d w).2.requests = w.requests ∧
    (downloadPDF tbl env u d w).2.fs = w.fs ∧
    (downloadPDF tbl env u d w).2.log =
      w.log ++ [LogLine.alreadyExists (filepathJoin [d, urlToFilename tbl u])] := by
  have hx : fileExists w (filepathJoin [d, urlToFilename tbl u]) = true := by
    simp only [fileExists, h]
  rw [downloadPDF_of_exists tbl env u d w hx]
  exact ⟨rfl, rfl, rfl, rfl⟩

/-- C3 at the URL `https://blasterproducts.com/file1.pdf` in a world that
already holds `PDFs/file1.pdf`. -/
theorem downloadPDF_skips_existing_witness :
    worldWithFile.fs (filepathJoin [outputDir,
        urlToFilename id (bytes "https://blasterproducts.com/file1.pdf")]) =
      some (Node.file (bytes "%PDF-1.4")) ∧
    (downloadPDF id envAllPdf (bytes "https://blasterproducts.com/file1.pdf") outputDir
      worldWithFile).1 = false ∧
    (downloadPDF id envAllPdf (bytes "https://blasterproducts.com/file1.pdf") outputDir
      worldWithFile).2.requests = [] :=
  ⟨by decide,
   (downloadPDF_skips_existing id envAllPdf (bytes "https://blasterproducts.com/file1.pdf")
      outputDir worldWithFile (bytes "%PDF-1.4") (by decide)).1,
   (downloadPDF_skips_existing id envAllPdf (bytes "https://blasterproducts.com/file1.pdf")
      outputDir worldWithFile (bytes "%PDF-1.4") (by decide)).2.1⟩

theorem downloadPDF_changes (tbl : Nat → Nat) (env : Env) (u d : Str) (w : World)
    (h : (downloadPDF tbl env u d w).1 = true ∨ (downloadPDF tbl env u d w).2.fs ≠ w.fs) :
    ∃ resp, env.roundTrip u = some resp ∧ resp.statusCode = 200 ∧
      (contains resp.contentType (bytes "binary/octet-stream") = true ∨
        contains resp.contentType (bytes "application/pdf") = true) ∧
      resp.body ≠ [] := by
  unfold downloadPDF at h
  simp only [] at h
  split at h
  · simp [World.logging] at h
  · split at h
    · simp [World.logging] at h
    · split at h
      · simp [World.logging] at h
      · rename_i resp hresp
        split at h
        · simp [World.logging] at h
        · rename_i hst
          split at h
          · simp [World.logging] at h
          · rename_i hct
            split at h
            · simp [World.logging] at h
            · split at h
              · simp [World.logging] at h
              · rename_i hbody
                refine ⟨resp, hresp, by simpa using hst, ?_, ?_⟩
                · simp only [Bool.not_eq_true', not_and, Bool.not_eq_false] at hct
                  by_cases h1 : contains resp.contentType (bytes "binary/octet-stream") = true
                  · exact Or.inl h1
                  · exact Or.inr (hct (by simpa using h1))
                · intro e; apply hbody; rw [e]; rfl

/-- **C4.** `downloadPDF` returns `true` or changes the file system only if
the response has status 200, a `Content-Type` containing `binary/octet-stream`
or `application/pdf`, and a non-empty body; for a response with another
status, with the content type `text/html`, or with an empty body it returns
`false` and the file system is as before. -/
theorem downloadPDF_only_pdf (tbl : Nat → Nat) (env : Env) (u d : Str) (w : World) :
    ((downloadPDF tbl env u d w).1 = true ∨ (downloadPDF tbl env u d w).2.fs ≠ w.fs →
      ∃ resp, env.roundTrip u = some resp ∧ resp.statusCode = 200 ∧
        (contains resp.contentType (bytes "binary/octet-stream") = true ∨
          contains resp.contentType (bytes "application/pdf") = true) ∧
        resp.body ≠ []) ∧
    (∀ resp, env.roundTrip u = some resp →
      (resp.statusCode ≠ 200 ∨ resp.contentType = bytes "text/html" ∨ resp.body = []) →
      (downloadPDF tbl env u d w).1 = false ∧ (downloadPDF tbl env u d w).2.fs = w.fs) := by
  refine ⟨downloadPDF_changes tbl env u d w, ?_⟩
  intro resp hresp hbad
  by_contra hcon
  have hch : (downloadPDF tbl env u d w).1 = true ∨ (downloadPDF tbl env u d w).2.fs ≠ w.fs := by
    by_cases h1 : (downloadPDF tbl env u d w).1 = true
    · exact Or.inl h1
    · right
      intro h2
      exact hcon ⟨by simpa using h1, h2⟩
  obtain ⟨resp', hresp', hst, hct, hbody⟩ := downloadPDF_changes tbl env u d w hch
  rw [hresp] at hresp'
  simp only [Option.some.injEq] at hresp'
  subst hresp'
  rcases hbad with hb | hb | hb
  · exact hb hst
  · rw [hb] at hct
    revert hct; decide
  · exact hbody hb

theorem downloadPDF_true_exists_aux (tbl : Nat → Nat) (env : Env) (u d : Str) (w : World)
    (r : Bool × World) (hr : downloadPDF tbl env u d w = r) (h : r.1 = true) :
    fileExists r.2 (filepathJoin [d, urlToFilename tbl u]) = true := by
  unfold downloadPDF at hr
  simp only [toLower_urlToFilename] at hr
  split at hr
  · subst hr; simp at h
  · split at hr
    · subst hr; simp at h
    · split at hr
      · subst hr; simp at h
      · split at hr
        · subst hr; simp at h
        · split at hr
          · subst hr; simp at h
          · split at hr
            · subst hr; simp at h
            · split at hr
              · subst hr; simp at h
              · split at hr
                · subst hr; simp at h
                · split at hr
                  · subst hr; simp at h
                  · split at hr
                    · subst hr; simp at h
                    · subst hr
                      simp [fileExists, World.logging, FileSystem.put]

theorem downloadPDF_true_exists (tbl : Nat → Nat) (env : Env) (u d : Str) (w : World)
    (h : (downloadPDF tbl env u d w).1 = true) :
    fileExists (downloadPDF tbl env u d w).2 (filepathJoin [d, urlToFilename tbl u]) = true :=
  downloadPDF_true_exists_aux tbl env u d w _ rfl h

theorem archiveWith_eq (p0 p1 p2 p3 : Str) :
    archiveWith p0 p1 p2 p3 =
      p0 ++ hrefOpen ++ (bytes "https://blasterproducts.com/file1" ++ bytes ".pdf" ++ quote ::
        (p1 ++ hrefOpen ++ (bytes "/file1" ++ bytes ".pdf" ++ quote ::
          (p2 ++ hrefOpen ++ (bytes "/file1" ++ bytes ".pdf" ++ quote :: p3))))) := by
  have e1 : bytes "href=\"https://blasterproducts.com/file1.pdf\"" =
      hrefOpen ++ (bytes "https://blasterproducts.com/file1" ++ bytes ".pdf" ++ [quote]) := by
    decide
  have e2 : bytes "href=\"/file1.pdf\"" =
      hrefOpen ++ (bytes "/file1" ++ bytes ".pdf" ++ [quote]) := by decide
  unfold archiveWith
  rw [e1, e2]
  simp only [List.append_assoc, List.singleton_append, List.cons_append, List.nil_append]

theorem extractPDFUrls_archiveWith (p0 p1 p2 p3 : Str)
    (h0 : contains p0 hrefOpen = false) (h1 : contains p1 hrefOpen = false)
    (h2 : contains p2 hrefOpen = false) (h3 : contains p3 hrefOpen = false) :
    extractPDFUrls (archiveWith p0 p1 p2 p3) = [absLink, relLink, relLink] := by
  rw [archiveWith_eq,
    extractPDFUrls_first p0 _ _ h0 (by decide) (by decide),
    extractPDFUrls_first p1 _ _ h1 (by decide) (by decide),
    extractPDFUrls_first p2 _ _ h2 (by decide) (by decide),
    extractPDFUrls_nolink p3 h3]
  decide

/-- **C7.** End to end on an archive text with the absolute link once and the
relative link twice (and no other `href="`): two links remain after
deduplication, both are completed to the same valid URL and get the file name
`file1.pdf`, so `downloadPDF` is called exactly twice, and when the first call
wrote its file the second one is skipped because the file exists. -/
theorem endToEnd_file1 (tbl : Nat → Nat) (env : Env) (w : World) (p0 p1 p2 p3 : Str)
    (h0 : contains p0 hrefOpen = false) (h1 : contains p1 hrefOpen = false)
    (h2 : contains p2 hrefOpen = false) (h3 : contains p3 hrefOpen = false) :
    extractPDFUrls (archiveWith p0 p1 p2 p3) = [absLink, relLink, relLink] ∧
    removeDuplicatesFromSlice (extractPDFUrls (archiveWith p0 p1 p2 p3)) = [absLink, relLink] ∧
    hasDomain tbl absLink = true ∧ hasDomain tbl relLink = false ∧
    remoteDomainName ++ relLink = absLink ∧ isUrlValid tbl absLink = true ∧
    urlToFilename tbl absLink = bytes "file1.pdf" ∧
    filepathJoin [outputDir, bytes "file1.pdf"] = bytes "PDFs/file1.pdf" ∧
    mainFromArchive tbl env (archiveWith p0 p1 p2 p3) w =
      (downloadPDF tbl env absLink outputDir (downloadPDF tbl env absLink outputDir w).2).2 ∧
    ((downloadPDF tbl env absLink outputDir w).1 = true →
      downloadPDF tbl env absLink outputDir (downloadPDF tbl env absLink outputDir w).2 =
        (false, (downloadPDF tbl env absLink outputDir w).2.logging
          (LogLine.alreadyExists (bytes "PDFs/file1.pdf")))) := by
  have hx := extractPDFUrls_archiveWith p0 p1 p2 p3 h0 h1 h2 h3
  have hd : removeDuplicatesFromSlice (extractPDFUrls (archiveWith p0 p1 p2 p3)) =
      [absLink, relLink] := by rw [hx]; decide
  have e2 : hasDomain tbl absLink = true := by rw [hasDomain_tbl tbl id]; decide
  have e3 : hasDomain tbl relLink = false := by rw [hasDomain_tbl tbl id]; decide
  have e4 : remoteDomainName ++ relLink = absLink := by decide
  have e5 : isUrlValid tbl absLink = true := by rw [isUrlValid_tbl tbl id]; decide
  have e6 : urlToFilename tbl absLink = bytes "file1.pdf" := by
    rw [urlToFilename_ascii tbl id _ (by decide)]; decide
  have e7 : filepathJoin [outputDir, bytes "file1.pdf"] = bytes "PDFs/file1.pdf" := by decide
  refine ⟨hx, hd, e2, e3, e4, e5, e6, e7, ?_, ?_⟩
  · unfold mainFromArchive
    rw [hd]
    simp only [List.foldl_cons, List.foldl_nil, processLink, e2, e3, e4, e5, Bool.not_true,
      Bool.not_false, if_true, Bool.false_eq_true, if_false]
  · intro hok
    have := downloadPDF_true_exists tbl env absLink outputDir w hok
    rw [downloadPDF_of_exists tbl env absLink outputDir _ this, e6, e7]

/-- C7 on the archive text `archiveExample`, run in a world with an empty
directory `PDFs` and an environment that answers every request with a PDF:
one HTTP request is sent, the log has a success and then a skip, and the file
holds the body received. -/
theorem endToEnd_file1_witness :
    contains (bytes "<a ") hrefOpen = false ∧
    contains (bytes ">SDS</a>\n<a ") hrefOpen = false ∧
    contains (bytes ">SDS</a>\n<li><a ") hrefOpen = false ∧
    contains (bytes ">SDS</a></li>\n") hrefOpen = false ∧
    archiveWith (bytes "<a ") (bytes ">SDS</a>\n<a ") (bytes ">SDS</a>\n<li><a ")
      (bytes ">SDS</a></li>\n") = archiveExample ∧
    removeDuplicatesFromSlice (extractPDFUrls (archiveWith (bytes "<a ") (bytes ">SDS</a>\n<a ")
      (bytes ">SDS</a>\n<li><a ") (bytes ">SDS</a></li>\n"))) = [absLink, relLink] ∧
    (downloadPDF id envAllPdf absLink outputDir worldEmpty).1 = true ∧
    (mainFromArchive id envAllPdf archiveExample worldEmpty).requests = [absLink] ∧
    (mainFromArchive id envAllPdf archiveExample worldEmpty).log =
      [LogLine.success 8 absLink (bytes "PDFs/file1.pdf"),
       LogLine.alreadyExists (bytes "PDFs/file1.pdf")] ∧
    (mainFromArchive id envAllPdf archiveExample worldEmpty).fs (bytes "PDFs/file1.pdf") =
      some (Node.file (bytes "%PDF-1.7")) :=
  ⟨by decide, by decide, by decide, by decide, by decide,
    (endToEnd_file1 id envAllPdf worldEmpty (bytes "<a ") (bytes ">SDS</a>\n<a ")
      (bytes ">SDS</a>\n<li><a ") (bytes ">SDS</a></li>\n")
      (by decide) (by decide) (by decide) (by decide)).2.1,
    by decide, by decide, by decide, by decide⟩

end Blaster
